import Mathlib

/- A shallow embedding of the documentation tooling in
   apps/docs/scripts/convert-tables.py and apps/docs/scripts/fix-keys.py.

   Python strings are modelled as lists of characters (`Str`); a document is
   the full character list of a file.  The scripts' file writes are modelled by
   returning the new text together with the boolean they use to report a write.

   Modelling notes:
   * `str.splitlines(keepends=True)` is modelled for newline-terminated text
     (terminator `'\n'`); the exotic terminators Python also splits on
     (`'\r'`, `'\v'`, `'\f'`, ...) are outside the model.
   * Regular expressions are modelled by bespoke recursive functions whose
     language is computed from the pattern; each carries a comment deriving it.
   * The Python dicts `{1: "type", ...}` / `{"merge": [...]}` returned by
     `headers_to_mapping` become the two-shape inductive `Mapping`;
     `sorted(mapping.items())` becomes an insertion sort by column index.
     A `None` field name never occurs in the source, so the
     `field_name is None` guard is dropped.
   * ASCII text is assumed where Python `.lower()` / `.strip()` touch
     Unicode-specific cases. -/

abbrev Str := List Char

/-- Python whitespace class (ASCII part), as used by `str.strip` and `\s`. -/
def isPyWs (c : Char) : Bool :=
  c == ' ' || c == '\t' || c == '\n' || c == '\r' || c == '\x0b' || c == '\x0c'

/-- Drop the longest suffix whose characters satisfy `p`. -/
def rdropWhile (p : Char → Bool) (s : Str) : Str :=
  (s.reverse.dropWhile p).reverse

/-- Python `str.lstrip()`. -/
def pyLstrip (s : Str) : Str := s.dropWhile isPyWs

/-- Python `str.rstrip()`. -/
def pyRstrip (s : Str) : Str := rdropWhile isPyWs s

/-- Python `str.strip()`. -/
def pyStrip (s : Str) : Str := pyRstrip (pyLstrip s)

/-- Python `str.lower()` (ASCII). -/
def pyLower (s : Str) : Str := s.map Char.toLower

/-- Python `str.strip(c)` for a one-character set `c`. -/
def stripChar (c : Char) (s : Str) : Str :=
  rdropWhile (· == c) (s.dropWhile (· == c))

/-- Python `str.rstrip("\n")`: drop every trailing newline. -/
def rstripNL (s : Str) : Str := rdropWhile (· == '\n') s

/-- Python `str.startswith(pat)`. -/
def startsWithB (pat s : Str) : Bool := pat.isPrefixOf s

/-- Python `pat in s` (substring containment). -/
def containsSub (pat s : Str) : Bool := s.tails.any (fun t => pat.isPrefixOf t)

/-- Python `str.replace(pat, rep)` (all non-overlapping occurrences, left to
right).  For the empty pattern the source never calls it, and the model simply
copies the string. -/
def pyReplace (pat rep : Str) : Str → Str
  | [] => []
  | c :: rest =>
    if h : pat ≠ [] ∧ pat.isPrefixOf (c :: rest) then
      rep ++ pyReplace pat rep ((c :: rest).drop pat.length)
    else
      c :: pyReplace pat rep rest
termination_by s => s.length
decreasing_by
  · simp only [List.drop, List.length_drop]
    cases pat with
    | nil => exact absurd rfl h.1
    | cons p ps => simp [List.length_cons]; omega
  · simp [List.length_cons]

/-- Python `str.split(sep)` for a one-character separator. -/
def splitOnChar (sep : Char) : Str → List Str
  | [] => [[]]
  | c :: rest =>
    if c = sep then [] :: splitOnChar sep rest
    else
      match splitOnChar sep rest with
      | [] => [[c]]
      | x :: xs => (c :: x) :: xs

/-- Python `sep.join(xs)`. -/
def joinSep (sep : Str) : List Str → Str
  | [] => []
  | [x] => x
  | x :: xs => x ++ sep ++ joinSep sep xs

/-- Does the line start with the table marker character? -/
def startsWithPipe (s : Str) : Bool :=
  match s with
  | c :: _ => c == '|'
  | [] => false

/-- Character class `[-| :]` of the separator-line pattern. -/
def inSepClass (c : Char) : Bool :=
  c == '-' || c == '|' || c == ' ' || c == ':'

/-- Membership in the language `[-| :]* \s*` (tail of the separator line).
Derivation: a word is in `A* W*` iff it is empty, or its head is in `A` and the
tail is in `A* W*`, or its head is whitespace and the tail is all whitespace. -/
def sepTail (s : Str) : Bool :=
  match s with
  | [] => true
  | c :: r => (inSepClass c && sepTail r) || (isPyWs c && r.all isPyWs)

/-- Model of `re.match(r"^\|[-| :]+\|?\s*$", line)` on a newline-free line.
Since `'|'` is itself in the class `[-| :]`, the optional trailing `\|?` is
absorbed and the language is exactly `'|'` followed by `[-| :]+ \s*`. -/
def isSepLine (s : Str) : Bool :=
  match s with
  | p :: c :: r => p == '|' && (inSepClass c && sepTail r)
  | _ => false

/-- The inner `split_row` of `parse_table`:
`line.strip().strip("|")`, split on `"|"`, then strip each cell. -/
def split_row (line : Str) : List Str :=
  (splitOnChar '|' (stripChar '|' (pyStrip line))).map pyStrip

/-- `parse_table` from convert-tables.py: `None` if fewer than 3 lines or the
second line is not a separator line; otherwise the first line split into
headers and every later line whose stripped form starts with `'|'` split into
a row. -/
def parse_table (lines : List Str) : Option (List Str × List (List Str)) :=
  if lines.length < 3 then none
  else if ! isSepLine (lines.getD 1 []) then none
  else some (split_row (lines.getD 0 []),
    ((lines.drop 2).filter (fun l => startsWithPipe (pyStrip l))).map split_row)

/-- The three semantic field names a mapped column can carry. -/
inductive Role where
  | type
  | description
  | default
deriving DecidableEq

/-- The two shapes `headers_to_mapping` can return: a mapping from column
index to field name, or the merge directive with its ordered index list. -/
inductive Mapping where
  | fields : List (Nat × Role) → Mapping
  | merge : List Nat → Mapping
deriving DecidableEq

/-- Header vocabulary treated as a type column for 3-column tables. -/
def typeLikeWords : List Str :=
  ["method".toList, "binding".toList, "protocol".toList,
   "format".toList, "strategy".toList, "returns".toList]

/-- `headers_to_mapping` from convert-tables.py.  Header cells are lowercased
and stripped; column 0 is the key column and is never mapped.  `range(1, n)`
becomes `List.range' 1 (n - 1)`. -/
def headers_to_mapping (headers : List Str) : Mapping :=
  let h := headers.map (fun col => pyStrip (pyLower col))
  let n := h.length
  if n = 2 then .fields [(1, .description)]
  else if n = 3 then
    let h1 := h.getD 1 []
    let h2 := h.getD 2 []
    if containsSub "type".toList h1 then .fields [(1, .type), (2, .description)]
    else if containsSub "default".toList h2 then
      .fields [(1, .description), (2, .default)]
    else if typeLikeWords.any (fun x => containsSub x h1) then
      .fields [(1, .type), (2, .description)]
    else .merge (List.range' 1 (n - 1))
  else if n = 4 then
    let h1 := h.getD 1 []
    let h3 := h.getD 3 []
    if containsSub "type".toList h1 && containsSub "default".toList h3 then
      .fields [(1, .type), (2, .description), (3, .default)]
    else if containsSub "default".toList h3 then
      .fields [(1, .description), (2, .type), (3, .default)]
    else if containsSub "type".toList h1 then
      .fields [(1, .type), (2, .description), (3, .default)]
    else .merge (List.range' 1 (n - 1))
  else .merge (List.range' 1 (n - 1))

/-- Index of the end of the lazy group in `(.+?)` followed by the literal
delimiter `d`: the returned `k` is the length of the shortest non-empty,
newline-free inner text after which `d` occurs.  Mirrors the backtracking
order of the regex engine (try inner length 1, then 2, ...). -/
def findCloseIdx (d : Str) : Str → Option Nat
  | [] => none
  | c :: rest =>
    if c = '\n' then none
    else if d.isPrefixOf rest then some 1
    else (findCloseIdx d rest).map (· + 1)

/-- Model of `re.sub(d + "(.+?)" + d, r"\1", s)` for a literal delimiter `d`
(used with `d = "**"` and `d = "` + ba + "`"`): scan left to right, at each
position try to match the opener, the shortest newline-free inner text and the
closer; on success emit the inner text and continue after the match, otherwise
advance one character. -/
def subDelim (d : Str) : Str → Str
  | [] => []
  | c :: rest =>
    if h : d ≠ [] ∧ d.isPrefixOf (c :: rest) then
      let t := (c :: rest).drop d.length
      match findCloseIdx d t with
      | some k => t.take k ++ subDelim d (t.drop (k + d.length))
      | none => c :: subDelim d rest
    else c :: subDelim d rest
termination_by s => s.length
decreasing_by
  · simp only [List.length_drop]
    have hd : 1 ≤ d.length := by
      cases d with
      | nil => exact absurd rfl h.1
      | cons x xs => simp
    simp only [List.length_cons]
    omega
  · simp
  · simp

/-- Removal of bold markers, `re.sub(r"\*\*(.+?)\*\*", r"\1", s)`. -/
def boldSub (s : Str) : Str := subDelim "**".toList s

/-- Removal of inline-code markers, backtick-delimited. -/
def codeSub (s : Str) : Str := subDelim "\x60".toList s

/-- `to_jsx_key` from convert-tables.py: strip, unwrap bold and inline-code
markers, escape double quotes, wrap in double quotes. -/
def to_jsx_key (s : Str) : Str :=
  let s3 := codeSub (boldSub (pyStrip s))
  '"' :: pyReplace "\"".toList "\\\"".toList s3 ++ ['"']

/-- `to_jsx_string` from convert-tables.py: strip, remove bold markers; if the
value contains a backtick, angle bracket or opening brace, emit a template
literal with backslash, backtick and dollar escaped; otherwise a plain quoted
string with double quotes replaced by an HTML entity. -/
def to_jsx_string (s : Str) : Str :=
  let t := boldSub (pyStrip s)
  if t.contains '\x60' || t.contains '<' || t.contains '>' || t.contains '\x7b' then
    let e := pyReplace "$".toList "\\$".toList
      (pyReplace "\x60".toList "\\\x60".toList
        (pyReplace "\\".toList "\\\\".toList t))
    '\x7b' :: '\x60' :: e ++ ['\x60', '\x7d']
  else
    '"' :: pyReplace "\"".toList "&quot;".toList t ++ ['"']

/-- Insertion by column index, the order `sorted(mapping.items())` uses. -/
def insertPair (x : Nat × Role) : List (Nat × Role) → List (Nat × Role)
  | [] => [x]
  | y :: ys => if y.1 ≤ x.1 then y :: insertPair x ys else x :: y :: ys

/-- Stable insertion sort by column index, modelling `sorted(mapping.items())`
(dict keys are distinct, so stability is irrelevant to the source). -/
def sortPairs : List (Nat × Role) → List (Nat × Role)
  | [] => []
  | x :: xs => insertPair x (sortPairs xs)

/-- The rendered name of a semantic field. -/
def roleName : Role → Str
  | .type => "type".toList
  | .description => "description".toList
  | .default => "default".toList

/-- The em dash placeholder cell. -/
def emDash : Str := "—".toList

/-- The dash placeholder cell. -/
def dashStr : Str := "-".toList

/-- Python `not val or val in ("—", "-")`: the cell is skipped. -/
def badCellB (v : Str) : Bool := v == ([] : Str) || v == emDash || v == dashStr

/-- Merge-mode fragments: for each merge-list index in order, if the cell is
present and survives `badCellB`, a `"Header: value"` fragment (the plain value
when no header text is available, modelling the Python truthiness test
`headers and col_idx < len(headers)`). -/
def mergeParts (row : List Str) (idxs : List Nat) (headers : Option (List Str)) :
    List Str :=
  idxs.filterMap (fun i =>
    if i < row.length then
      let val := pyStrip (row.getD i [])
      if badCellB val then none
      else
        match headers with
        | some hs =>
          if i < hs.length then some (pyStrip (hs.getD i []) ++ ": ".toList ++ val)
          else some val
        | none => some val
    else none)

/-- One rendered property line `      field: value,`. -/
def fieldLine (r : Role) (val : Str) : Str :=
  "      ".toList ++ roleName r ++ ": ".toList ++ to_jsx_string val ++ ",".toList

/-- Non-merge property lines, iterated in `sorted(mapping.items())` order. -/
def fieldProps (row : List Str) (flds : List (Nat × Role)) : List Str :=
  (sortPairs flds).filterMap (fun p =>
    if p.1 < row.length then
      let val := pyStrip (row.getD p.1 [])
      if badCellB val then none else some (fieldLine p.2 val)
    else none)

/-- The single merged description line `      description: value,`. -/
def mergeLine (parts : List Str) : Str :=
  "      description: ".toList ++ to_jsx_string (joinSep " · ".toList parts)
    ++ ",".toList

/-- The `props` list built by `row_to_type_node`. -/
def propsOf (row : List Str) (mapping : Mapping) (headers : Option (List Str)) :
    List Str :=
  match mapping with
  | .merge idxs =>
    let parts := mergeParts row idxs headers
    if parts = [] then [] else [mergeLine parts]
  | .fields flds => fieldProps row flds

/-- `row_to_type_node` from convert-tables.py. -/
def row_to_type_node (key : Str) (row : List Str) (mapping : Mapping)
    (headers : Option (List Str)) : Str :=
  let props := propsOf row mapping headers
  let keyStr := to_jsx_key key
  if props = [] then "    ".toList ++ keyStr ++ ": \x7b\x7d,\n".toList
  else "    ".toList ++ keyStr ++ ": \x7b\n".toList ++ joinSep "\n".toList props
    ++ "\n    \x7d,\n".toList

/-- The entry list of `table_to_type_table`: rows that are empty or have an
empty key cell are skipped (`if not row or not row[0]: continue`). -/
def tableEntries (mapping : Mapping) (headers : List Str) :
    List (List Str) → List Str
  | [] => []
  | row :: rest =>
    if row = [] ∨ row.getD 0 [] = [] then tableEntries mapping headers rest
    else row_to_type_node (pyStrip (row.getD 0 [])) row mapping (some headers)
      :: tableEntries mapping headers rest

/-- `table_to_type_table` from convert-tables.py. -/
def table_to_type_table (headers : List Str) (rows : List (List Str)) : Str :=
  let mapping := headers_to_mapping headers
  "<TypeTable\n  type=\x7b\n".toList
    ++ (tableEntries mapping headers rows).flatten ++ "  \x7d\n/>".toList

/-- `find_table_blocks` from convert-tables.py, as a recursion over the line
list: a maximal run of lines starting with `'|'` yields the absolute index
pair `(start, end)`; the index argument tracks the absolute position. -/
def fbAux : List Str → Nat → List (Nat × Nat)
  | [], _ => []
  | l :: rest, i =>
    if h : startsWithPipe l then
      let run := (l :: rest).takeWhile startsWithPipe
      (i, i + run.length)
        :: fbAux ((l :: rest).dropWhile startsWithPipe) (i + run.length)
    else fbAux rest (i + 1)
termination_by ls _ => ls.length
decreasing_by
  all_goals simp only [List.dropWhile, h, List.length_cons]
  all_goals first
    | exact Nat.lt_succ_of_le ((List.dropWhile_sublist _).length_le)
    | omega

/-- `find_table_blocks(lines)`; the caller passes the newline-stripped lines. -/
def find_table_blocks (lines : List Str) : List (Nat × Nat) := fbAux lines 0

/-- The reverse-order replacement loop of `convert_file`: for each block
(last to first), parse the newline-stripped segment; on success with a
non-empty row list splice in the generated fragment (plus a newline) over the
block's line range; the boolean is the `modified` flag. -/
def processBlocks : List (Nat × Nat) → List Str → List Str × Bool
  | [], lines => (lines, false)
  | (s, e) :: bs, lines =>
    let seg := ((lines.drop s).take (e - s)).map rstripNL
    match parse_table seg with
    | none => processBlocks bs lines
    | some (headers, rows) =>
      if rows = [] then processBlocks bs lines
      else
        let lines2 := lines.take s
          ++ [table_to_type_table headers rows ++ "\n".toList] ++ lines.drop e
        (processBlocks bs lines2).1 |> fun r => (r, true)

/-- The fixed import line of convert-tables.py. -/
def IMPORT_LINE : Str :=
  "import \x7b TypeTable \x7d from \x27fumadocs-ui/components/type-table\x27;\n".toList

/-- First-pass insertion anchor: `line.strip().startswith("import ") and
"fumadocs" in line`. -/
def importFumadocsB (l : Str) : Bool :=
  startsWithB "import ".toList (pyStrip l) && containsSub "fumadocs".toList l

/-- First insertion pass of `convert_file`: append the import line after the
first line matching `importFumadocsB`; the boolean is the `inserted` flag. -/
def insertAfterImport : List Str → List Str × Bool
  | [] => ([], false)
  | l :: rest =>
    if importFumadocsB l then (l :: IMPORT_LINE :: rest, true)
    else
      let p := insertAfterImport rest
      (l :: p.1, p.2)

/-- A front-matter fence line: `line.strip() == "---"`. -/
def isFenceB (l : Str) : Bool := pyStrip l == ['-', '-', '-']

/-- Second insertion pass of `convert_file`: the `in_frontmatter` and
`fm_closed` state machine; after the second fence line a blank line and the
TypeTable import are appended, and the remaining lines are copied
unchanged. -/
def insertAfterFrontmatterAux : Bool → List Str → List Str
  | _, [] => []
  | infm, l :: rest =>
    if isFenceB l then
      if infm then l :: "\n".toList :: IMPORT_LINE :: rest
      else l :: insertAfterFrontmatterAux true rest
    else l :: insertAfterFrontmatterAux infm rest

/-- The `if not has_import` insertion of `convert_file`: first pass, and if it
did not insert, the front-matter pass over the first pass's output. -/
def insertImport (lines : List Str) : List Str :=
  let p := insertAfterImport lines
  if p.2 then p.1 else insertAfterFrontmatterAux false p.1

/-- `str.splitlines(keepends=True)` for newline-terminated text. -/
def splitLinesKeep : Str → List Str
  | [] => []
  | c :: rest =>
    if c = '\n' then "\n".toList :: splitLinesKeep rest
    else
      match splitLinesKeep rest with
      | [] => [[c]]
      | l :: ls => (c :: l) :: ls

/-- `convert_file` from convert-tables.py on the file's text: the returned
boolean is its return value (whether the file was written); when it is false
the text is returned unchanged (no write happens). -/
def convert (content : Str) : Str × Bool :=
  let lines := splitLinesKeep content
  let blocks := find_table_blocks (lines.map rstripNL)
  if blocks = [] then (content, false)
  else
    let hasImport := containsSub (pyStrip IMPORT_LINE) content
    let p := processBlocks blocks.reverse lines
    if p.2 = false then (content, false)
    else
      let lines3 := if hasImport then p.1 else insertImport p.1
      (lines3.flatten, true)

/-- Forward single-pass equivalent of the reverse-order splicing loop
(`processBlocks` over `find_table_blocks`), used to reason about
`convert`: walk the lines; a maximal run of `'|'`-prefixed lines is parsed
and either replaced by the generated fragment or kept. -/
def rewriteLines : List Str → List Str × Bool
  | [] => ([], false)
  | l :: rest =>
    if h : startsWithPipe l then
      let run := (l :: rest).takeWhile startsWithPipe
      let rest' := (l :: rest).dropWhile startsWithPipe
      match parse_table (run.map rstripNL) with
      | some (headers, rows) =>
        if rows = [] then
          let p := rewriteLines rest'
          (run ++ p.1, p.2)
        else
          let p := rewriteLines rest'
          ((table_to_type_table headers rows ++ "\n".toList) :: p.1, true)
      | none =>
        let p := rewriteLines rest'
        (run ++ p.1, p.2)
    else
      let p := rewriteLines rest
      (l :: p.1, p.2)
termination_by ls => ls.length
decreasing_by
  all_goals simp only [List.dropWhile, h, List.length_cons]
  all_goals first
    | exact Nat.lt_succ_of_le ((List.dropWhile_sublist _).length_le)
    | omega

/-- Lazy-group end for the `BAD_KEY` pattern of fix-keys.py: the length of the
shortest (possibly empty) newline-free inner text after which the closer
backtick-brace-colon occurs.  The closer is tried before consuming a
character, modelling the lazy `(.*?)`. -/
def findKeyCloseIdx : Str → Option Nat
  | [] => none
  | c :: rest =>
    if startsWithB ['\x60', '\x7d', ':'] (c :: rest) then some 0
    else if c = '\n' then none
    else (findKeyCloseIdx rest).map (· + 1)

/-- `fix_key` from fix-keys.py applied to the captured inner text: remove the
escaped-backtick markers, then escape double quotes. -/
def fix_key_inner (inner : Str) : Str :=
  pyReplace "\"".toList "\\\"".toList (pyReplace "\\\x60".toList [] inner)

/-- Model of `BAD_KEY.sub(fix_key, text)` with
`BAD_KEY = re.compile(r"^(\s+)\{`(.*?)`\}:", re.MULTILINE)`.
The scanner walks the text tracking whether the position is a line start
(position 0 or preceded by a newline); at a line start a match requires a
non-empty maximal whitespace run (backtracking cannot shorten it, since the
following literal brace is not whitespace), the opening brace-backtick, the
lazy inner text and the closer; the replacement is the captured whitespace,
the quoted fixed key and the colon. -/
def badKeySubAux : Bool → Str → Str
  | _, [] => []
  | atStart, c :: rest =>
    if atStart then
      if h : (c :: rest).takeWhile isPyWs ≠ []
          ∧ startsWithB "\x7b\x60".toList ((c :: rest).dropWhile isPyWs) then
        match findKeyCloseIdx (((c :: rest).dropWhile isPyWs).drop 2) with
        | some k =>
          (c :: rest).takeWhile isPyWs
            ++ '"' :: fix_key_inner ((((c :: rest).dropWhile isPyWs).drop 2).take k)
            ++ '"' :: ':'
            :: badKeySubAux false ((((c :: rest).dropWhile isPyWs).drop 2).drop (k + 3))
        | none => c :: badKeySubAux (decide (c = '\n')) rest
      else c :: badKeySubAux (decide (c = '\n')) rest
    else c :: badKeySubAux (decide (c = '\n')) rest
termination_by _ s => s.length
decreasing_by
  · have h1 : (List.dropWhile isPyWs (c :: rest)).length ≤ rest.length + 1 := by
      simpa using (List.dropWhile_sublist (l := c :: rest) (p := isPyWs)).length_le
    simp only [List.length_drop, List.length_cons]
    omega
  all_goals simp

/-- The whole-text substitution of fix-keys.py. -/
def fixKeysText (text : Str) : Str := badKeySubAux true text

/-- The per-file loop body of fix-keys.py: skip files without the
templated-literal marker, rewrite keys, write only when the text changed.
The boolean reports whether the file was written. -/
def fixKeysFile (text : Str) : Str × Bool :=
  if ! containsSub "\x7b\x60".toList text then (text, false)
  else
    let nt := fixKeysText text
    if nt ≠ text then (nt, true) else (text, false)

/-- Discriminator for the merge shape of a mapping. -/
def isMergeShape : Mapping → Bool
  | .merge _ => true
  | .fields _ => false

/-- The column-role classifier exactly as the specification states it
(claim C1): ordered rules over case-insensitively matched header text,
column 0 never assigned a role, with explicit column lists. -/
def c1_spec (headers : List Str) : Mapping :=
  let h := headers.map (fun col => pyStrip (pyLower col))
  if headers.length = 2 then .fields [(1, .description)]
  else if headers.length = 3 then
    if containsSub "type".toList (h.getD 1 []) then
      .fields [(1, .type), (2, .description)]
    else if containsSub "default".toList (h.getD 2 []) then
      .fields [(1, .description), (2, .default)]
    else if containsSub "method".toList (h.getD 1 [])
        || containsSub "binding".toList (h.getD 1 [])
        || containsSub "protocol".toList (h.getD 1 [])
        || containsSub "format".toList (h.getD 1 [])
        || containsSub "strategy".toList (h.getD 1 [])
        || containsSub "returns".toList (h.getD 1 []) then
      .fields [(1, .type), (2, .description)]
    else .merge [1, 2]
  else if headers.length = 4 then
    if containsSub "type".toList (h.getD 1 [])
        ∧ containsSub "default".toList (h.getD 3 []) then
      .fields [(1, .type), (2, .description), (3, .default)]
    else if containsSub "default".toList (h.getD 3 []) then
      .fields [(1, .description), (2, .type), (3, .default)]
    else if containsSub "type".toList (h.getD 1 []) then
      .fields [(1, .type), (2, .description), (3, .default)]
    else .merge [1, 2, 3]
  else .merge (List.range' 1 (headers.length - 1))

/-- Character-wise escape of the templated-string form stated by claim C4:
every backslash, backtick and dollar is backslash-escaped. -/
def escTemplChar (c : Char) : Str :=
  if c = '\\' ∨ c = '\x60' ∨ c = '$' then ['\\', c] else [c]

/-- Character-wise escape of the plain quoted form stated by claim C4: every
double quote becomes the HTML entity. -/
def escQuotChar (c : Char) : Str :=
  if c = '"' then "&quot;".toList else [c]

/-- The merge fragments exactly as claim C5 states them: each merge-list
index in order whose cell is present, non-empty and not an em dash or dash
contributes `Header: value` with the stripped original header as label. -/
def c5_fragments (row hs : List Str) (idxs : List Nat) : List Str :=
  idxs.filterMap (fun i =>
    if h : i < row.length then
      let v := pyStrip (row.get ⟨i, h⟩)
      if v = [] ∨ v = emDash ∨ v = dashStr then none
      else some (pyStrip (hs.getD i []) ++ ": ".toList ++ v)
    else none)

/-- Declarative reading of the separator-line pattern: a marker character,
then a non-empty stretch of the class `[-| :]`, then trailing whitespace. -/
def sepSpec (l : Str) : Prop :=
  ∃ u v, l = '|' :: (u ++ v) ∧ u ≠ []
    ∧ (∀ c ∈ u, inSepClass c = true) ∧ (∀ c ∈ v, isPyWs c = true)

/-- The line ends with a newline terminator. -/
def endsNL (l : Str) : Prop := l.getLast? = some '\n'

/-- A proper line: non-empty, with no newline before the last position. -/
def properLine (l : Str) : Prop := l ≠ [] ∧ ∀ c ∈ l.dropLast, c ≠ '\n'

/-- Well-formed line list, as produced by `splitLinesKeep`: every line is
proper and every line except the last ends with a newline. -/
def linesWF : List Str → Prop
  | [] => True
  | [l] => properLine l
  | l :: rest => properLine l ∧ endsNL l ∧ linesWF rest

/-- Whether the first line of a line list starts with the marker. -/
def headPipe (ls : List Str) : Bool :=
  match ls with
  | [] => false
  | l :: _ => startsWithPipe l

/-- A line of a generated fragment: proper, newline-terminated and not
starting with the table marker. -/
def goodLine (l : Str) : Prop :=
  properLine l ∧ endsNL l ∧ startsWithPipe l = false

/- ------------------------------------------------------------------ -/
/- Lemmas and theorems.                                               -/
/- ------------------------------------------------------------------ -/

theorem isMergeShape_cases (m : Mapping) :
    (∃ l, m = Mapping.fields l) ↔ ¬ ∃ l, m = Mapping.merge l := by
  cases m with
  | fields l => simp
  | merge l => simp

/-- Claim C1: for at least two columns, the classifier agrees with the
spec's ordered rules, and it returns exactly one of the two shapes. -/
theorem c1_classifier (headers : List Str) :
    (2 ≤ headers.length → headers_to_mapping headers = c1_spec headers)
    ∧ ((∃ l, headers_to_mapping headers = Mapping.fields l)
        ↔ ¬ ∃ l, headers_to_mapping headers = Mapping.merge l) := by
  refine ⟨?_, isMergeShape_cases _⟩
  intro _
  rcases headers with _ | ⟨a, _ | ⟨b, _ | ⟨c, _ | ⟨d, _ | ⟨e, rest⟩⟩⟩⟩⟩
  · simp [headers_to_mapping, c1_spec]
  · simp [headers_to_mapping, c1_spec]
  · simp [headers_to_mapping, c1_spec]
  · simp [headers_to_mapping, c1_spec, typeLikeWords, List.range', or_assoc]
  · simp [headers_to_mapping, c1_spec, Bool.and_eq_true, List.range']
  · simp only [headers_to_mapping, c1_spec, List.length_map, List.length_cons]
    rw [if_neg (by omega), if_neg (by omega), if_neg (by omega),
      if_neg (by omega), if_neg (by omega), if_neg (by omega)]

theorem c1_witness :
    2 ≤ (["Name".toList, "Type".toList, "Description".toList] : List Str).length
    ∧ headers_to_mapping ["Name".toList, "Type".toList, "Description".toList]
      = c1_spec ["Name".toList, "Type".toList, "Description".toList] :=
  ⟨by decide,
   (c1_classifier ["Name".toList, "Type".toList, "Description".toList]).1
     (by decide)⟩

theorem tableEntries_eq_filter (m : Mapping) (hs : List Str)
    (rows : List (List Str)) :
    tableEntries m hs rows
      = (rows.filter (fun r => !(r.isEmpty || (r.getD 0 []).isEmpty))).map
          (fun r => row_to_type_node (pyStrip (r.getD 0 [])) r m (some hs)) := by
  induction rows with
  | nil => rfl
  | cons r rest ih =>
    by_cases h : r = [] ∨ r.getD 0 [] = []
    · rw [tableEntries, if_pos h, ih, List.filter_cons, if_neg]
      rw [List.getD_eq_getElem?_getD] at h
      simp [List.isEmpty_iff]
      tauto
    · rw [tableEntries, if_neg h, ih, List.filter_cons, if_pos]
      · simp
      · rw [List.getD_eq_getElem?_getD] at h
        simp [List.isEmpty_iff]
        tauto

/-- Claim C10: rows that are empty or have an empty key cell contribute no
entry to the generated fragment. -/
theorem c10_row_dropped (headers : List Str) (rows : List (List Str)) :
    table_to_type_table headers rows =
      "<TypeTable\n  type=\x7b\n".toList
        ++ ((rows.filter (fun r => !(r.isEmpty || (r.getD 0 []).isEmpty))).map
              (fun r => row_to_type_node (pyStrip (r.getD 0 []))
                r (headers_to_mapping headers) (some headers))).flatten
        ++ "  \x7d\n/>".toList := by
  rw [table_to_type_table, tableEntries_eq_filter]

theorem pyReplace_single (a : Char) (r : Str) (s : Str) :
    pyReplace [a] r s = s.flatMap (fun c => if c = a then r else [c]) := by
  induction s with
  | nil => simp [pyReplace]
  | cons c rest ih =>
    rw [pyReplace]
    by_cases h : a = c
    · rw [dif_pos ⟨by simp, by simp [List.isPrefixOf, h]⟩]
      subst h
      simp [ih]
    · rw [dif_neg (fun hcon => h (by simpa [List.isPrefixOf] using hcon.2))]
      show c :: pyReplace [a] r rest = (if c = a then r else [c]) ++ _
      rw [if_neg (fun hh => h hh.symm), ih]
      rfl

theorem escTempl_pointwise (c : Char) :
    (if c = '\\' then ['\\', '\\'] else [c]).flatMap
        (fun x => (if x = '\x60' then ['\\', '\x60'] else [x]).flatMap
          (fun y => if y = '$' then ['\\', '$'] else [y])) = escTemplChar c := by
  by_cases h1 : c = '\\'
  · simp [h1, escTemplChar]
  · by_cases h2 : c = '\x60'
    · simp [h1, h2, escTemplChar]
    · by_cases h3 : c = '$'
      · simp [h1, h2, h3, escTemplChar]
      · simp [h1, h2, h3, escTemplChar]

/-- Claim C4: after stripping and bold removal, a value containing a backtick,
angle bracket or opening brace renders as the templated form with every
backslash, backtick and dollar backslash-escaped; any other value renders as
a plain quoted string with internal double quotes replaced by `&quot;`. -/
theorem c4_escaping (s : Str) :
    to_jsx_string s =
      (if (boldSub (pyStrip s)).contains '\x60'
          || (boldSub (pyStrip s)).contains '<'
          || (boldSub (pyStrip s)).contains '>'
          || (boldSub (pyStrip s)).contains '\x7b' then
        '\x7b' :: '\x60' :: (boldSub (pyStrip s)).flatMap escTemplChar
          ++ ['\x60', '\x7d']
      else '"' :: (boldSub (pyStrip s)).flatMap escQuotChar ++ ['"']) := by
  rw [to_jsx_string]
  have e1 : "\\".toList = ['\\'] := rfl
  have e2 : "\\\\".toList = ['\\', '\\'] := rfl
  have e3 : "\x60".toList = ['\x60'] := rfl
  have e4 : "\\\x60".toList = ['\\', '\x60'] := rfl
  have e5 : "$".toList = ['$'] := rfl
  have e6 : "\\$".toList = ['\\', '$'] := rfl
  have e7 : "\"".toList = ['"'] := rfl
  split
  · rw [e1, e2, e3, e4, e5, e6, pyReplace_single, pyReplace_single,
      pyReplace_single, List.bind_assoc, List.bind_assoc]
    simp only [escTempl_pointwise]
  · rw [e7, pyReplace_single]
    rfl

theorem mergeParts_eq_c5 (row hs : List Str) (idxs : List Nat)
    (hlen : ∀ i ∈ idxs, i < hs.length) :
    mergeParts row idxs (some hs) = c5_fragments row hs idxs := by
  unfold mergeParts c5_fragments
  apply List.filterMap_congr
  intro i hi
  by_cases h : i < row.length
  · rw [if_pos h, dif_pos h, List.getD_eq_get _ _ h]
    by_cases hb : badCellB (pyStrip (row.get ⟨i, h⟩)) = true
    · rw [if_pos hb, if_pos (by simpa [badCellB, or_assoc] using hb)]
    · rw [if_neg hb, if_neg (by simpa [badCellB, or_assoc] using hb)]
      dsimp only
      rw [if_pos (hlen i hi)]
  · rw [if_neg h, dif_neg h]

/-- Claim C5: in merge mode the surviving `Header: value` fragments, joined
with the middle-dot separator, become the single description field; and a
five-column header always classifies as a merge of columns 1 to 4. -/
theorem c5_merge_rendering (key : Str) (row hs : List Str) (idxs : List Nat)
    (hlen : ∀ i ∈ idxs, i < hs.length) :
    (row_to_type_node key row (.merge idxs) (some hs)
      = (if c5_fragments row hs idxs = [] then
          "    ".toList ++ to_jsx_key key ++ ": \x7b\x7d,\n".toList
        else
          "    ".toList ++ to_jsx_key key ++ ": \x7b\n".toList
            ++ "      description: ".toList
            ++ to_jsx_string (joinSep " · ".toList (c5_fragments row hs idxs))
            ++ ",".toList ++ "\n    \x7d,\n".toList))
    ∧ (hs.length = 5 → headers_to_mapping hs = .merge [1, 2, 3, 4]) := by
  constructor
  · rw [row_to_type_node]
    have hp : propsOf row (.merge idxs) (some hs)
        = (if c5_fragments row hs idxs = [] then []
           else [mergeLine (c5_fragments row hs idxs)]) := by
      show (let parts := mergeParts row idxs (some hs);
            if parts = [] then [] else [mergeLine parts]) = _
      rw [mergeParts_eq_c5 _ _ _ hlen]
    rw [hp]
    by_cases h : c5_fragments row hs idxs = []
    · simp [h]
    · rw [if_neg h, if_neg (by simp [h]), if_neg h]
      simp [mergeLine, joinSep]
  · intro h5
    simp [headers_to_mapping, h5, List.range']

theorem c5_witness :
    (∀ i ∈ [1], i < (["k".toList, "v".toList] : List Str).length)
    ∧ ((row_to_type_node "a".toList ["a".toList, "x".toList]
          (.merge [1]) (some ["k".toList, "v".toList])
        = (if c5_fragments ["a".toList, "x".toList] ["k".toList, "v".toList] [1] = [] then
            "    ".toList ++ to_jsx_key "a".toList ++ ": \x7b\x7d,\n".toList
          else
            "    ".toList ++ to_jsx_key "a".toList ++ ": \x7b\n".toList
              ++ "      description: ".toList
              ++ to_jsx_string (joinSep " · ".toList
                  (c5_fragments ["a".toList, "x".toList] ["k".toList, "v".toList] [1]))
              ++ ",".toList ++ "\n    \x7d,\n".toList))
        ∧ ((["k".toList, "v".toList] : List Str).length = 5 →
            headers_to_mapping ["k".toList, "v".toList] = .merge [1, 2, 3, 4])) :=
  ⟨by decide,
   c5_merge_rendering "a".toList ["a".toList, "x".toList]
     ["k".toList, "v".toList] [1] (by decide)⟩

theorem mem_insertPair (x a : Nat × Role) (L : List (Nat × Role)) :
    a ∈ insertPair x L ↔ a = x ∨ a ∈ L := by
  induction L with
  | nil => simp [insertPair]
  | cons y ys ih =>
    rw [insertPair]
    by_cases h : y.1 ≤ x.1
    · rw [if_pos h]
      simp [ih]
      tauto
    · rw [if_neg h]
      simp

theorem pairwise_insertPair (x : Nat × Role) (L : List (Nat × Role))
    (h : L.Pairwise (fun a b => a.1 ≤ b.1)) :
    (insertPair x L).Pairwise (fun a b => a.1 ≤ b.1) := by
  induction L with
  | nil => simp [insertPair]
  | cons y ys ih =>
    rw [List.pairwise_cons] at h
    rw [insertPair]
    by_cases hle : y.1 ≤ x.1
    · rw [if_pos hle, List.pairwise_cons]
      refine ⟨?_, ih h.2⟩
      intro b hb
      rcases (mem_insertPair x b ys).1 hb with hb | hb
      · exact hb ▸ hle
      · exact h.1 b hb
    · rw [if_neg hle, List.pairwise_cons]
      refine ⟨?_, List.pairwise_cons.2 h⟩
      intro b hb
      rcases List.mem_cons.1 hb with hb | hb
      · exact hb ▸ Nat.le_of_not_le hle
      · exact Nat.le_trans (Nat.le_of_not_le hle) (h.1 b hb)

theorem sortPairs_pairwise (L : List (Nat × Role)) :
    (sortPairs L).Pairwise (fun a b => a.1 ≤ b.1) := by
  induction L with
  | nil => simp [sortPairs]
  | cons x xs ih => exact pairwise_insertPair x (sortPairs xs) ih

theorem filter_insertPair (p : Nat × Role → Bool) (x : Nat × Role)
    (L : List (Nat × Role)) (h : L.Pairwise (fun a b => a.1 ≤ b.1)) :
    (insertPair x L).filter p
      = if p x then insertPair x (L.filter p) else L.filter p := by
  induction L with
  | nil =>
    by_cases hpx : p x = true <;> simp [insertPair, hpx]
  | cons y ys ih =>
    rw [List.pairwise_cons] at h
    rw [insertPair]
    by_cases hle : y.1 ≤ x.1
    · rw [if_pos hle, List.filter_cons]
      by_cases hpy : p y = true
      · rw [if_pos hpy, ih h.2, List.filter_cons, if_pos hpy]
        by_cases hpx : p x = true
        · rw [if_pos hpx, if_pos hpx, insertPair, if_pos hle]
        · rw [if_neg hpx, if_neg hpx]
      · rw [if_neg hpy, ih h.2, List.filter_cons, if_neg hpy]
    · rw [if_neg hle, List.filter_cons]
      by_cases hpx : p x = true
      · rw [if_pos hpx, if_pos hpx]
        cases hf : (y :: ys).filter p with
        | nil => rw [insertPair]
        | cons z zs =>
          have hz : z ∈ (y :: ys).filter p := by rw [hf]; exact List.mem_cons_self _ _
          have hz2 : z ∈ y :: ys := List.mem_of_mem_filter hz
          have hyz : y.1 ≤ z.1 := by
            rcases List.mem_cons.1 hz2 with hh | hh
            · exact hh ▸ Nat.le_refl _
            · exact h.1 z hh
          rw [insertPair, if_neg (fun hcon => hle (Nat.le_trans hyz hcon))]
      · rw [if_neg hpx, if_neg hpx]

theorem sortPairs_filter (p : Nat × Role → Bool) (L : List (Nat × Role)) :
    sortPairs (L.filter p) = (sortPairs L).filter p := by
  induction L with
  | nil => rfl
  | cons x xs ih =>
    rw [List.filter_cons, sortPairs, filter_insertPair p x (sortPairs xs)
      (sortPairs_pairwise xs)]
    by_cases hpx : p x = true
    · rw [if_pos hpx, if_pos hpx, sortPairs, ih]
    · rw [if_neg hpx, if_neg hpx, ih]

/-- Claim C6: a cell whose stripped value is empty, an em dash or a dash
produces no field in either rendering mode (dropping its column from the
mapping changes nothing), and when no field survives the entry is an empty
object that still carries the normalized key. -/
theorem c6_value_omission (key : Str) (row : List Str)
    (headers : Option (List Str)) (i : Nat) (idxs : List Nat)
    (flds : List (Nat × Role))
    (hbad : badCellB (pyStrip (row.getD i [])) = true) :
    propsOf row (.merge idxs) headers
        = propsOf row (.merge (idxs.filter (fun j => !(j == i)))) headers
    ∧ propsOf row (.fields flds) headers
        = propsOf row (.fields (flds.filter (fun q => !(q.1 == i)))) headers
    ∧ ∀ m, propsOf row m headers = [] →
        row_to_type_node key row m headers
          = "    ".toList ++ to_jsx_key key ++ ": \x7b\x7d,\n".toList := by
  refine ⟨?_, ?_, ?_⟩
  · have hmerge : mergeParts row (idxs.filter (fun j => !(j == i))) headers
        = mergeParts row idxs headers := by
      unfold mergeParts
      rw [List.filterMap_filter]
      apply List.filterMap_congr
      intro j hj
      by_cases hji : j = i
      · subst hji
        rw [if_neg (by simp)]
        by_cases hlen : j < row.length
        · simp only [if_pos hlen]
          rw [if_pos hbad]
        · rw [if_neg hlen]
      · rw [if_pos (by simp [hji])]
    show (let parts := mergeParts row idxs headers;
          if parts = [] then [] else [mergeLine parts])
      = (let parts := mergeParts row (idxs.filter (fun j => !(j == i))) headers;
         if parts = [] then [] else [mergeLine parts])
    rw [hmerge]
  · show fieldProps row flds = fieldProps row (flds.filter (fun q => !(q.1 == i)))
    unfold fieldProps
    rw [sortPairs_filter, List.filterMap_filter]
    apply List.filterMap_congr
    intro q hq
    obtain ⟨qa, qb⟩ := q
    by_cases hqi : qa = i
    · subst hqi
      rw [if_neg (show ¬((!(qa, qb).1 == qa) = true) by simp)]
      by_cases hlen : qa < row.length
      · simp only [if_pos hlen]
        rw [if_pos hbad]
      · rw [if_neg hlen]
    · rw [if_pos (show (!(qa, qb).1 == i) = true by simp [hqi])]
  · intro m hm
    rw [row_to_type_node]
    show (if propsOf row m headers = [] then _ else _) = _
    rw [hm, if_pos rfl]

theorem c6_witness :
    badCellB (pyStrip ((["k".toList, "—".toList] : List Str).getD 1 [])) = true
    ∧ (propsOf ["k".toList, "—".toList] (.merge [1]) (some ["a".toList, "b".toList])
        = propsOf ["k".toList, "—".toList]
            (.merge ([1].filter (fun j => !(j == 1)))) (some ["a".toList, "b".toList])
      ∧ propsOf ["k".toList, "—".toList] (.fields [(1, .description)])
            (some ["a".toList, "b".toList])
        = propsOf ["k".toList, "—".toList]
            (.fields ([(1, (.description : Role))].filter (fun q => !(q.1 == 1))))
            (some ["a".toList, "b".toList])
      ∧ ∀ m, propsOf ["k".toList, "—".toList] m (some ["a".toList, "b".toList]) = [] →
          row_to_type_node "k".toList ["k".toList, "—".toList] m
              (some ["a".toList, "b".toList])
            = "    ".toList ++ to_jsx_key "k".toList ++ ": \x7b\x7d,\n".toList) :=
  ⟨by decide,
   c6_value_omission "k".toList ["k".toList, "—".toList]
     (some ["a".toList, "b".toList]) 1 [1] [(1, .description)] (by decide)⟩

theorem sepTail_iff (s : Str) :
    sepTail s = true
      ↔ ∃ u v, s = u ++ v ∧ (∀ c ∈ u, inSepClass c = true)
          ∧ (∀ c ∈ v, isPyWs c = true) := by
  induction s with
  | nil =>
    constructor
    · intro _
      exact ⟨[], [], rfl, by simp, by simp⟩
    · intro _
      rfl
  | cons c r ih =>
    constructor
    · intro h
      rcases Bool.or_eq_true_iff.1 h with h1 | h2
      · rcases Bool.and_eq_true_iff.1 h1 with ⟨hc, ht⟩
        rcases ih.1 ht with ⟨u, v, rfl, hu, hv⟩
        exact ⟨c :: u, v, rfl, by
          intro x hx
          rcases List.mem_cons.1 hx with hh | hh
          · exact hh ▸ hc
          · exact hu x hh, hv⟩
      · rcases Bool.and_eq_true_iff.1 h2 with ⟨hc, ht⟩
        refine ⟨[], c :: r, rfl, by simp, ?_⟩
        intro x hx
        rcases List.mem_cons.1 hx with hh | hh
        · exact hh ▸ hc
        · exact List.all_eq_true.1 ht x hh
    · rintro ⟨u, v, hs, hu, hv⟩
      cases u with
      | nil =>
        simp only [List.nil_append] at hs
        subst hs
        rw [sepTail]
        apply Bool.or_eq_true_iff.2
        right
        apply Bool.and_eq_true_iff.2
        exact ⟨hv c (List.mem_cons_self _ _),
          List.all_eq_true.2 (fun x hx => hv x (List.mem_cons_of_mem _ hx))⟩
      | cons a u' =>
        rw [List.cons_append, List.cons.injEq] at hs
        obtain ⟨rfl, rfl⟩ := hs
        rw [sepTail]
        apply Bool.or_eq_true_iff.2
        left
        apply Bool.and_eq_true_iff.2
        refine ⟨hu c (List.mem_cons_self _ _), ih.2 ⟨u', v, rfl, ?_, hv⟩⟩
        exact fun x hx => hu x (List.mem_cons_of_mem _ hx)

theorem isSepLine_iff (l : Str) : isSepLine l = true ↔ sepSpec l := by
  rcases l with _ | ⟨p, _ | ⟨c, r⟩⟩
  · constructor
    · intro h
      cases h
    · rintro ⟨u, v, h, -⟩
      cases h
  · constructor
    · intro h
      cases h
    · rintro ⟨u, v, h, hne, -⟩
      rw [List.cons.injEq] at h
      rcases u with _ | ⟨a, u'⟩
      · exact absurd rfl hne
      · cases h.2
  · rw [isSepLine]
    constructor
    · intro h
      rcases Bool.and_eq_true_iff.1 h with ⟨hp, h2⟩
      rcases Bool.and_eq_true_iff.1 h2 with ⟨hc, ht⟩
      rcases (sepTail_iff r).1 ht with ⟨u, v, rfl, hu, hv⟩
      refine ⟨c :: u, v, ?_, by simp, ?_, hv⟩
      · rw [show p = '|' from by simpa using hp]
        rfl
      · intro x hx
        rcases List.mem_cons.1 hx with hh | hh
        · exact hh ▸ hc
        · exact hu x hh
    · rintro ⟨u, v, heq, hne, hu, hv⟩
      rcases u with _ | ⟨a, u'⟩
      · exact absurd rfl hne
      · rw [List.cons_append, List.cons.injEq, List.cons.injEq] at heq
        obtain ⟨rfl, rfl, rfl⟩ := heq
        apply Bool.and_eq_true_iff.2
        refine ⟨by simp, Bool.and_eq_true_iff.2
          ⟨hu c (List.mem_cons_self _ _), (sepTail_iff _).2 ⟨u', v, rfl, ?_, hv⟩⟩⟩
        exact fun x hx => hu x (List.mem_cons_of_mem _ hx)

/-- Counterexample to claim C7 as stated: the third line does not start with
the marker character, yet the parser does not exclude it — its cells appear
as a data row, because the code tests `l.strip().startswith("|")`. -/
theorem c7_counterexample :
    startsWithPipe "  | a |".toList = false
    ∧ parse_table ["| h |".toList, "|---|".toList, "  | a |".toList]
        = some (["h".toList], [["a".toList]])
    ∧ ([["a".toList]] : List (List Str)) ≠ [] := by
  refine ⟨by decide, by decide, by decide⟩

/-- Claim C7 as amended: failure exactly on fewer than three lines or a bad
separator line (characterized declaratively by `sepSpec`), and on success the
headers are the split first line while the rows are the later lines whose
whitespace-stripped form starts with the marker, each split by `split_row`
(which strips surrounding whitespace before trimming marker characters). -/
theorem c7_parse_contract (lines : List Str) :
    (parse_table lines = none
      ↔ lines.length < 3 ∨ ¬ sepSpec (lines.getD 1 []))
    ∧ (∀ hs rows, parse_table lines = some (hs, rows) →
        hs = split_row (lines.getD 0 [])
        ∧ rows = ((lines.drop 2).filter
            (fun l => startsWithPipe (pyStrip l))).map split_row) := by
  constructor
  · rw [parse_table]
    by_cases h3 : lines.length < 3
    · simp [h3]
    · rw [if_neg h3]
      by_cases hsep : isSepLine (lines.getD 1 []) = true
      · rw [if_neg (by rw [hsep]; decide)]
        constructor
        · intro hc
          cases hc
        · rintro (hc | hc)
          · exact absurd hc h3
          · exact absurd ((isSepLine_iff _).1 hsep) hc
      · rw [if_pos (by rw [eq_false_of_ne_true hsep]; decide)]
        simp only [true_iff]
        right
        exact fun hc => hsep ((isSepLine_iff _).2 hc)
  · intro hs rows h
    rw [parse_table] at h
    by_cases h3 : lines.length < 3
    · rw [if_pos h3] at h
      cases h
    · rw [if_neg h3] at h
      by_cases hsep : isSepLine (lines.getD 1 []) = true
      · rw [if_neg (by rw [hsep]; decide)] at h
        have h' := Option.some.inj h
        exact ⟨((Prod.ext_iff.1 h').1).symm, ((Prod.ext_iff.1 h').2).symm⟩
      · rw [if_pos (by rw [eq_false_of_ne_true hsep]; decide)] at h
        cases h

theorem c7_witness :
    (∀ hs rows,
      parse_table ["| a | b |".toList, "|---|---|".toList, "| k | v |".toList]
        = some (hs, rows) →
      hs = split_row ((["| a | b |".toList, "|---|---|".toList,
          "| k | v |".toList] : List Str).getD 0 [])
      ∧ rows = (((["| a | b |".toList, "|---|---|".toList,
          "| k | v |".toList] : List Str).drop 2).filter
            (fun l => startsWithPipe (pyStrip l))).map split_row) :=
  (c7_parse_contract ["| a | b |".toList, "|---|---|".toList,
    "| k | v |".toList]).2

theorem containsSub_cons (pat : Str) (c : Char) (l : Str) :
    containsSub pat (c :: l)
      = (pat.isPrefixOf (c :: l) || containsSub pat l) := by
  rfl

theorem takeWhile_app (p : Char → Bool) (u : Str) (z : Char) (t : Str)
    (hu : ∀ c ∈ u, p c = true) (hz : p z = false) :
    (u ++ z :: t).takeWhile p = u ∧ (u ++ z :: t).dropWhile p = z :: t := by
  induction u with
  | nil => simp [List.takeWhile_cons, List.dropWhile_cons, hz]
  | cons a u' ih =>
    have ha : p a = true := hu a (List.mem_cons_self _ _)
    have ih' := ih (fun c hc => hu c (List.mem_cons_of_mem _ hc))
    simp only [List.cons_append, List.takeWhile_cons, List.dropWhile_cons, ha,
      if_true]
    exact ⟨by rw [ih'.1], by rw [ih'.2]⟩

theorem findKeyCloseIdx_app (inner rest : Str)
    (hnl : ∀ c ∈ inner, ¬ c = '\n')
    (hni : containsSub ['\x60', '\x7d', ':'] inner = false) :
    findKeyCloseIdx (inner ++ '\x60' :: '\x7d' :: ':' :: rest)
      = some inner.length := by
  induction inner with
  | nil =>
    rw [List.nil_append, findKeyCloseIdx, if_pos (show startsWithB
      ['\x60', '\x7d', ':'] ('\x60' :: '\x7d' :: ':' :: rest) = true by
        simp [startsWithB, List.isPrefixOf])]
    rfl
  | cons x in' ih =>
    rw [containsSub_cons] at hni
    have hpre := (Bool.or_eq_false_iff.1 hni).1
    have hnc : ¬ (startsWithB ['\x60', '\x7d', ':']
        (x :: (in' ++ '\x60' :: '\x7d' :: ':' :: rest)) = true) := by
      intro hcon
      rcases in' with _ | ⟨y, _ | ⟨z, w⟩⟩
      · simp [startsWithB, List.isPrefixOf] at hcon
      · simp [startsWithB, List.isPrefixOf] at hcon
      · simp [startsWithB, List.isPrefixOf] at hcon
        rw [← hcon.1, ← hcon.2.1, ← hcon.2.2] at hpre
        simp [List.isPrefixOf] at hpre
    rw [List.cons_append, findKeyCloseIdx, if_neg hnc,
      if_neg (by simpa using hnl x (List.mem_cons_self _ _)),
      ih (fun c hc => hnl c (List.mem_cons_of_mem _ hc))
        (Bool.or_eq_false_iff.1 hni).2]
    rfl

theorem badKeySub_match (ws inner rest : Str)
    (hws : ws ≠ []) (hwsall : ∀ c ∈ ws, isPyWs c = true)
    (hnl : ∀ c ∈ inner, ¬ c = '\n')
    (hni : containsSub ['\x60', '\x7d', ':'] inner = false) :
    badKeySubAux true
        (ws ++ '\x7b' :: '\x60' :: (inner ++ '\x60' :: '\x7d' :: ':' :: rest))
      = ws ++ '"' :: fix_key_inner inner ++ '"' :: ':'
          :: badKeySubAux false rest := by
  rcases ws with _ | ⟨w0, ws'⟩
  · exact absurd rfl hws
  have happ := takeWhile_app isPyWs (w0 :: ws')
    '\x7b' ('\x60' :: (inner ++ '\x60' :: '\x7d' :: ':' :: rest)) hwsall (by decide)
  rw [List.cons_append] at happ
  rw [show (w0 :: ws') ++ '\x7b' :: '\x60'
        :: (inner ++ '\x60' :: '\x7d' :: ':' :: rest)
      = w0 :: (ws' ++ '\x7b' :: '\x60'
        :: (inner ++ '\x60' :: '\x7d' :: ':' :: rest)) from rfl]
  rw [badKeySubAux, if_pos rfl, dif_pos (And.intro
    (show (w0 :: (ws' ++ '\x7b' :: '\x60'
        :: (inner ++ '\x60' :: '\x7d' :: ':' :: rest))).takeWhile isPyWs ≠ []
      from by rw [happ.1]; simp)
    (show startsWithB "\x7b\x60".toList ((w0 :: (ws' ++ '\x7b' :: '\x60'
        :: (inner ++ '\x60' :: '\x7d' :: ':' :: rest))).dropWhile isPyWs) = true
      from by rw [happ.2]; simp [startsWithB, List.isPrefixOf]))]
  rw [show ((w0 :: (ws' ++ '\x7b' :: '\x60'
        :: (inner ++ '\x60' :: '\x7d' :: ':' :: rest))).dropWhile isPyWs).drop 2
      = inner ++ '\x60' :: '\x7d' :: ':' :: rest from by rw [happ.2]; rfl]
  rw [findKeyCloseIdx_app inner rest hnl hni]
  dsimp only
  rw [happ.1, List.take_left,
    show (inner ++ '\x60' :: '\x7d' :: ':' :: rest).drop (inner.length + 3)
      = rest from by rw [List.drop_append 3]; rfl]

/-- Claim C9: the Key Normalizer skips files without the templated-literal
marker and writes only when a substitution changed the text; each match of the
malformed-key pattern is rewritten to the same indentation, a double-quoted
key with the escaped-backtick markers removed and double quotes escaped, and
the colon. -/
theorem c9_fix_keys (text ws inner rest : Str)
    (hws : ws ≠ []) (hwsall : ∀ c ∈ ws, isPyWs c = true)
    (hnl : ∀ c ∈ inner, ¬ c = '\n')
    (hni : containsSub ['\x60', '\x7d', ':'] inner = false) :
    (containsSub "\x7b\x60".toList text = false → fixKeysFile text = (text, false))
    ∧ ((fixKeysFile text).2 = true ↔ (fixKeysFile text).1 ≠ text)
    ∧ fixKeysText
        (ws ++ '\x7b' :: '\x60' :: (inner ++ '\x60' :: '\x7d' :: ':' :: rest))
        = ws ++ '"' :: fix_key_inner inner ++ '"' :: ':'
            :: badKeySubAux false rest := by
  refine ⟨?_, ?_, ?_⟩
  · intro h
    rw [fixKeysFile, if_pos (by rw [h]; decide)]
  · rw [fixKeysFile]
    by_cases hm : containsSub "\x7b\x60".toList text = true
    · rw [if_neg (by rw [hm]; decide)]
      by_cases hch : fixKeysText text ≠ text
      · rw [if_pos hch]
        simpa using hch
      · rw [if_neg hch]
        push_neg at hch
        simp
    · rw [if_pos (by rw [eq_false_of_ne_true hm]; decide)]
      simp
  · exact badKeySub_match ws inner rest hws hwsall hnl hni

theorem c9_witness :
    (([' ', ' '] : Str) ≠ []
        ∧ (∀ c ∈ ([' ', ' '] : Str), isPyWs c = true)
        ∧ (∀ c ∈ ("key".toList : Str), ¬ c = '\n')
        ∧ containsSub ['\x60', '\x7d', ':'] "key".toList = false)
    ∧ ((containsSub "\x7b\x60".toList "x".toList = false →
          fixKeysFile "x".toList = ("x".toList, false))
      ∧ ((fixKeysFile "x".toList).2 = true ↔ (fixKeysFile "x".toList).1 ≠ "x".toList)
      ∧ fixKeysText
          ([' ', ' '] ++ '\x7b' :: '\x60'
            :: ("key".toList ++ '\x60' :: '\x7d' :: ':' :: " v".toList))
          = [' ', ' '] ++ '"' :: fix_key_inner "key".toList ++ '"' :: ':'
              :: badKeySubAux false " v".toList) :=
  ⟨⟨by decide, by decide, by decide, by decide⟩,
   c9_fix_keys "x".toList [' ', ' '] "key".toList " v".toList
     (by decide) (by decide) (by decide) (by decide)⟩

theorem splitLinesKeep_nil_iff (t : Str) : splitLinesKeep t = [] ↔ t = [] := by
  cases t with
  | nil => simp [splitLinesKeep]
  | cons c rest =>
    rw [splitLinesKeep]
    constructor
    · intro h
      by_cases hc : c = '\n'
      · rw [if_pos hc] at h
        cases h
      · rw [if_neg hc] at h
        rcases hsp : splitLinesKeep rest with _ | ⟨l, ls⟩ <;> rw [hsp] at h <;>
          cases h
    · intro h
      cases h

theorem splitLinesKeep_flatten (t : Str) : (splitLinesKeep t).flatten = t := by
  induction t with
  | nil => rfl
  | cons c rest ih =>
    rw [splitLinesKeep]
    by_cases hc : c = '\n'
    · rw [if_pos hc, hc]
      simp [ih]
    · rw [if_neg hc]
      rcases hsp : splitLinesKeep rest with _ | ⟨l, ls⟩
      · have : rest = [] := (splitLinesKeep_nil_iff rest).1 hsp
        subst this
        rfl
      · rw [hsp] at ih
        simpa using ih

theorem splitLinesKeep_append (a b : Str) (ha : a ≠ [])
    (hnl : a.getLast? = some '\n') :
    splitLinesKeep (a ++ b) = splitLinesKeep a ++ splitLinesKeep b := by
  induction a with
  | nil => exact absurd rfl ha
  | cons c a' ih =>
    rcases a' with _ | ⟨d, a''⟩
    · have hc : c = '\n' := by simpa using hnl
      subst hc
      rw [List.cons_append, List.nil_append, splitLinesKeep, if_pos rfl]
      rw [show splitLinesKeep ['\n'] = ['\n'.toString.toList] from rfl]
      rfl
    · have hlast : (d :: a'').getLast? = some '\n' := by
        rwa [List.getLast?_cons_cons] at hnl
      have ih' := ih (by simp) hlast
      rw [List.cons_append, splitLinesKeep]
      by_cases hc : c = '\n'
      · rw [if_pos hc, ih',
          show splitLinesKeep (c :: d :: a'')
            = "\n".toList :: splitLinesKeep (d :: a'') from by
              rw [splitLinesKeep, if_pos hc]]
        simp
      · rw [if_neg hc, ih']
        rcases hsp : splitLinesKeep (d :: a'') with _ | ⟨l, ls⟩
        · exact absurd ((splitLinesKeep_nil_iff _).1 hsp) (by simp)
        · rw [splitLinesKeep, if_neg hc, hsp]
          simp

theorem splitLinesKeep_append_noNL (a b : Str) (ha : a ≠ [])
    (hno : ∀ c ∈ a, ¬ c = '\n') :
    splitLinesKeep (a ++ b)
      = (match splitLinesKeep b with
         | [] => [a]
         | l :: ls => (a ++ l) :: ls) := by
  induction a with
  | nil => exact absurd rfl ha
  | cons c a' ih =>
    have hc : ¬ c = '\n' := hno c (List.mem_cons_self _ _)
    rw [List.cons_append, splitLinesKeep, if_neg hc]
    rcases a' with _ | ⟨d, a''⟩
    · rcases hsp : splitLinesKeep b with _ | ⟨l, ls⟩
      · simp [hsp]
      · simp [hsp]
    · have ih' := ih (by simp) (fun x hx => hno x (List.mem_cons_of_mem _ hx))
      rw [ih']
      rcases hsp : splitLinesKeep b with _ | ⟨l, ls⟩ <;> simp

theorem properLine_split_single (l : Str) (h : properLine l) :
    splitLinesKeep l = [l] := by
  obtain ⟨hne, hin⟩ := h
  induction l with
  | nil => exact absurd rfl hne
  | cons c rest ih =>
    rcases rest with _ | ⟨d, rest'⟩
    · rw [splitLinesKeep]
      by_cases hc : c = '\n'
      · rw [if_pos hc, hc]
        rfl
      · rw [if_neg hc]
        rfl
    · have hdl : (c :: d :: rest').dropLast = c :: (d :: rest').dropLast := by
        rw [List.dropLast_cons_of_ne_nil (by simp)]
      have hc : ¬ c = '\n' := hin c (by rw [hdl]; exact List.mem_cons_self _ _)
      have ih' := ih (by simp)
        (fun x hx => hin x (by rw [hdl]; exact List.mem_cons_of_mem _ hx))
      rw [splitLinesKeep, if_neg hc, ih']
theorem linesWF_split (t : Str) : linesWF (splitLinesKeep t) := by
  induction t with
  | nil => trivial
  | cons c rest ih =>
    rw [splitLinesKeep]
    by_cases hc : c = '\n'
    · rw [if_pos hc]
      rcases hsp : splitLinesKeep rest with _ | ⟨l, ls⟩
      · exact ⟨by simp, by simp⟩
      · rw [hsp] at ih
        exact ⟨⟨by simp, by simp⟩, by simp [endsNL], ih⟩
    · rw [if_neg hc]
      rcases hsp : splitLinesKeep rest with _ | ⟨l, ls⟩
      · exact ⟨by simp, by simpa using fun _ => hc⟩
      · rw [hsp] at ih
        rcases ls with _ | ⟨l2, ls2⟩
        · obtain ⟨hlne, hlin⟩ := (ih : properLine l)
          refine ⟨by simp, ?_⟩
          intro x hx
          rw [List.dropLast_cons_of_ne_nil hlne] at hx
          rcases List.mem_cons.1 hx with hh | hh
          · exact hh ▸ hc
          · exact hlin x hh
        · obtain ⟨⟨hlne, hlin⟩, hlnl, hwf⟩ :=
            (ih : properLine l ∧ endsNL l ∧ linesWF (l2 :: ls2))
          refine ⟨⟨by simp, ?_⟩, ?_, hwf⟩
          · intro x hx
            rw [List.dropLast_cons_of_ne_nil hlne] at hx
            rcases List.mem_cons.1 hx with hh | hh
            · exact hh ▸ hc
            · exact hlin x hh
          · rcases l with _ | ⟨e, l'⟩
            · exact absurd rfl hlne
            · rw [endsNL, List.getLast?_cons_cons]
              exact hlnl

theorem linesWF_cons_elim (l : Str) (rest : List Str)
    (h : linesWF (l :: rest)) :
    properLine l ∧ (rest = [] ∨ (endsNL l ∧ linesWF rest)) := by
  rcases rest with _ | ⟨x, xs⟩
  · exact ⟨h, Or.inl rfl⟩
  · exact ⟨h.1, Or.inr ⟨h.2.1, h.2.2⟩⟩

theorem linesWF_flatten (ls : List Str) (h : linesWF ls) :
    splitLinesKeep ls.flatten = ls := by
  induction ls with
  | nil => rfl
  | cons l rest ih =>
    rcases linesWF_cons_elim l rest h with ⟨hp, hrest⟩
    rcases hrest with rfl | ⟨hnl, hwf⟩
    · rw [List.flatten, List.flatten_nil, List.append_nil]
      exact properLine_split_single l hp
    · rw [List.flatten_cons,
        splitLinesKeep_append _ _ hp.1 hnl, properLine_split_single l hp,
        ih hwf]
      rfl

theorem linesWF_append_elim (X Y : List Str) (h : linesWF (X ++ Y))
    (hY : Y ≠ []) :
    (∀ x ∈ X, properLine x ∧ endsNL x) ∧ linesWF Y := by
  induction X with
  | nil => exact ⟨by simp, h⟩
  | cons x xs ih =>
    rw [List.cons_append] at h
    rcases linesWF_cons_elim _ _ h with ⟨hp, hrest⟩
    rcases hrest with hemp | ⟨hnl, hwf⟩
    · exact absurd (List.append_eq_nil.1 hemp).2 hY
    · rcases ih hwf with ⟨hall, hwfY⟩
      refine ⟨?_, hwfY⟩
      intro z hz
      rcases List.mem_cons.1 hz with rfl | hz
      · exact ⟨hp, hnl⟩
      · exact hall z hz

theorem linesWF_of_all (ls : List Str)
    (h : ∀ x ∈ ls, properLine x ∧ endsNL x) : linesWF ls := by
  induction ls with
  | nil => trivial
  | cons l rest ih =>
    rcases rest with _ | ⟨x, xs⟩
    · exact (h l (List.mem_cons_self _ _)).1
    · exact ⟨(h l (List.mem_cons_self _ _)).1, (h l (List.mem_cons_self _ _)).2,
        ih (fun z hz => h z (List.mem_cons_of_mem _ hz))⟩

theorem linesWF_append_right (X Y : List Str)
    (hX : ∀ x ∈ X, properLine x ∧ endsNL x) (hY : linesWF Y) :
    linesWF (X ++ Y) := by
  induction X with
  | nil => exact hY
  | cons x xs ih =>
    have ih' := ih (fun z hz => hX z (List.mem_cons_of_mem _ hz))
    rcases hxx : xs ++ Y with _ | ⟨w, ws⟩
    · rw [List.cons_append, hxx]
      exact (hX x (List.mem_cons_self _ _)).1
    · rw [List.cons_append, hxx]
      exact ⟨(hX x (List.mem_cons_self _ _)).1,
        (hX x (List.mem_cons_self _ _)).2, hxx ▸ ih'⟩

theorem rw_nonpipe (l : Str) (rest : List Str) (h : startsWithPipe l = false) :
    rewriteLines (l :: rest)
      = (l :: (rewriteLines rest).1, (rewriteLines rest).2) := by
  rw [rewriteLines, dif_neg (by simp [h])]

theorem rw_pipe_none (l : Str) (rest : List Str) (h : startsWithPipe l = true)
    (hp : parse_table (((l :: rest).takeWhile startsWithPipe).map rstripNL)
      = none) :
    rewriteLines (l :: rest)
      = ((l :: rest).takeWhile startsWithPipe
          ++ (rewriteLines ((l :: rest).dropWhile startsWithPipe)).1,
         (rewriteLines ((l :: rest).dropWhile startsWithPipe)).2) := by
  rw [rewriteLines, dif_pos h]
  dsimp only
  rw [hp]

theorem rw_pipe_some (l : Str) (rest : List Str) (h : startsWithPipe l = true)
    (hs : List Str) (rows : List (List Str))
    (hp : parse_table (((l :: rest).takeWhile startsWithPipe).map rstripNL)
      = some (hs, rows)) (hrows : rows ≠ []) :
    rewriteLines (l :: rest)
      = ((table_to_type_table hs rows ++ "\n".toList)
          :: (rewriteLines ((l :: rest).dropWhile startsWithPipe)).1, true) := by
  rw [rewriteLines, dif_pos h]
  dsimp only
  rw [hp]
  dsimp only
  rw [if_neg hrows]

theorem rw_pipe_some_nil (l : Str) (rest : List Str)
    (h : startsWithPipe l = true) (hs : List Str)
    (hp : parse_table (((l :: rest).takeWhile startsWithPipe).map rstripNL)
      = some (hs, [])) :
    rewriteLines (l :: rest)
      = ((l :: rest).takeWhile startsWithPipe
          ++ (rewriteLines ((l :: rest).dropWhile startsWithPipe)).1,
         (rewriteLines ((l :: rest).dropWhile startsWithPipe)).2) := by
  rw [rewriteLines, dif_pos h]
  dsimp only
  rw [hp]
  dsimp only
  rw [if_pos rfl]

theorem takeWhile_append_headPipe (X Y : List Str) (hY : headPipe Y = false) :
    (X ++ Y).takeWhile startsWithPipe = X.takeWhile startsWithPipe
    ∧ (X ++ Y).dropWhile startsWithPipe = X.dropWhile startsWithPipe ++ Y := by
  induction X with
  | nil =>
    rcases Y with _ | ⟨y, ys⟩
    · exact ⟨rfl, rfl⟩
    · have hy : startsWithPipe y = false := by simpa [headPipe] using hY
      simp [List.takeWhile_cons, List.dropWhile_cons, hy]
  | cons x xs ih =>
    by_cases hx : startsWithPipe x = true
    · simp only [List.cons_append, List.takeWhile_cons, List.dropWhile_cons,
        hx, if_true]
      exact ⟨by rw [ih.1], by rw [ih.2]⟩
    · have hx' : startsWithPipe x = false := eq_false_of_ne_true hx
      simp [List.takeWhile_cons, List.dropWhile_cons, hx']

theorem dropWhile_cons_length (l : Str) (xs : List Str) :
    ((l :: xs).dropWhile startsWithPipe).length ≤ xs.length + 1 := by
  rw [List.dropWhile_cons]
  by_cases h : startsWithPipe l = true
  · rw [if_pos h]
    exact Nat.le_succ_of_le ((List.dropWhile_sublist _).length_le)
  · rw [if_neg h]
    simp

theorem rw_append (X Y : List Str) (hY : headPipe Y = false) :
    rewriteLines (X ++ Y)
      = ((rewriteLines X).1 ++ (rewriteLines Y).1,
         (rewriteLines X).2 || (rewriteLines Y).2) := by
  have H : ∀ n (X : List Str), X.length ≤ n →
      rewriteLines (X ++ Y)
        = ((rewriteLines X).1 ++ (rewriteLines Y).1,
           (rewriteLines X).2 || (rewriteLines Y).2) := by
    intro n
    induction n with
    | zero =>
      intro X hX
      have hXnil : X = [] := List.length_eq_zero.1 (Nat.le_zero.1 hX)
      subst hXnil
      simp [rewriteLines]
    | succ n ih =>
      intro X hX
      rcases X with _ | ⟨l, xs⟩
      · simp [rewriteLines]
      · by_cases hl : startsWithPipe l = true
        · have htd := takeWhile_append_headPipe (l :: xs) Y hY
          have hlen : ((l :: xs).dropWhile startsWithPipe).length ≤ n := by
            have h2 : ((l :: xs).dropWhile startsWithPipe).length ≤ xs.length := by
              rw [List.dropWhile_cons, if_pos hl]
              exact (List.dropWhile_sublist _).length_le
            simp only [List.length_cons] at hX
            omega
          have ihrest := ih _ hlen
          rcases hparse : parse_table
              (((l :: xs).takeWhile startsWithPipe).map rstripNL)
            with _ | ⟨hs, rows⟩
          · rw [show (l :: xs) ++ Y = l :: (xs ++ Y) from rfl,
              rw_pipe_none l (xs ++ Y) hl (by
                rw [show l :: (xs ++ Y) = (l :: xs) ++ Y from rfl, htd.1]
                exact hparse),
              rw_pipe_none l xs hl hparse]
            rw [show l :: (xs ++ Y) = (l :: xs) ++ Y from rfl, htd.1, htd.2, ihrest]
            simp
          · rcases rows with _ | ⟨r0, rs⟩
            · rw [show (l :: xs) ++ Y = l :: (xs ++ Y) from rfl,
                rw_pipe_some_nil l (xs ++ Y) hl hs (by
                  rw [show l :: (xs ++ Y) = (l :: xs) ++ Y from rfl, htd.1]
                  exact hparse),
                rw_pipe_some_nil l xs hl hs hparse]
              rw [show l :: (xs ++ Y) = (l :: xs) ++ Y from rfl, htd.1, htd.2, ihrest]
              simp
            · rw [show (l :: xs) ++ Y = l :: (xs ++ Y) from rfl,
                rw_pipe_some l (xs ++ Y) hl hs (r0 :: rs) (by
                  rw [show l :: (xs ++ Y) = (l :: xs) ++ Y from rfl, htd.1]
                  exact hparse) (by simp),
                rw_pipe_some l xs hl hs (r0 :: rs) hparse (by simp)]
              rw [show l :: (xs ++ Y) = (l :: xs) ++ Y from rfl, htd.2, ihrest]
              simp
        · have hl' : startsWithPipe l = false := eq_false_of_ne_true hl
          have ihrest := ih xs (by simpa using hX)
          rw [show (l :: xs) ++ Y = l :: (xs ++ Y) from rfl,
            rw_nonpipe l (xs ++ Y) hl', rw_nonpipe l xs hl', ihrest]
          simp [Bool.or_assoc]
  exact H X.length X le_rfl

theorem rw_nil : rewriteLines [] = ([], false) := by
  rw [rewriteLines]

theorem rw_all_nonpipe (ls : List Str)
    (h : ∀ l ∈ ls, startsWithPipe l = false) :
    rewriteLines ls = (ls, false) := by
  induction ls with
  | nil => exact rw_nil
  | cons l rest ih =>
    rw [rw_nonpipe l rest (h l (List.mem_cons_self _ _)),
      ih (fun x hx => h x (List.mem_cons_of_mem _ hx))]

theorem rw_nonpipe_front (X Y : List Str)
    (h : ∀ l ∈ X, startsWithPipe l = false) :
    rewriteLines (X ++ Y) = (X ++ (rewriteLines Y).1, (rewriteLines Y).2) := by
  induction X with
  | nil => rfl
  | cons x xs ih =>
    rw [List.cons_append, rw_nonpipe x _ (h x (List.mem_cons_self _ _)),
      ih (fun z hz => h z (List.mem_cons_of_mem _ hz))]
    simp

theorem rw_failed_run (R : List Str) (hR : ∀ l ∈ R, startsWithPipe l = true)
    (hne : R ≠ [])
    (hfail : parse_table (R.map rstripNL) = none
      ∨ ∃ hs, parse_table (R.map rstripNL) = some (hs, [])) :
    rewriteLines R = (R, false) := by
  rcases R with _ | ⟨l, rest⟩
  · exact absurd rfl hne
  have htake : (l :: rest).takeWhile startsWithPipe = l :: rest :=
    List.takeWhile_eq_self_iff.mpr hR
  have hdrop : (l :: rest).dropWhile startsWithPipe = [] :=
    List.dropWhile_eq_nil_iff.mpr (fun x hx => hR x hx)
  have hl := hR l (List.mem_cons_self _ _)
  rcases hfail with hfail | ⟨hs, hfail⟩
  · rw [rw_pipe_none l rest hl (by rw [htake]; exact hfail), htake, hdrop,
      rw_nil]
    simp
  · rw [rw_pipe_some_nil l rest hl hs (by rw [htake]; exact hfail), htake,
      hdrop, rw_nil]
    simp

theorem headPipe_dropWhile (ls : List Str) :
    headPipe (ls.dropWhile startsWithPipe) = false := by
  induction ls with
  | nil => rfl
  | cons l rest ih =>
    rw [List.dropWhile_cons]
    by_cases h : startsWithPipe l = true
    · rw [if_pos h]
      exact ih
    · rw [if_neg h]
      simpa [headPipe] using eq_false_of_ne_true h

theorem split_head_char (x t : Str) (hx : x ≠ []) :
    headPipe (splitLinesKeep (x ++ t)) = startsWithPipe x := by
  rcases x with _ | ⟨c, x'⟩
  · exact absurd rfl hx
  rw [List.cons_append, splitLinesKeep]
  by_cases hc : c = '\n'
  · rw [if_pos hc]
    subst hc
    rfl
  · rw [if_neg hc]
    rcases hsp : splitLinesKeep (x' ++ t) with _ | ⟨l, ls⟩ <;> rfl

theorem flatten_endsNL (X : List Str)
    (h : ∀ x ∈ X, properLine x ∧ endsNL x) (hne : X ≠ []) :
    X.flatten ≠ [] ∧ endsNL X.flatten := by
  induction X with
  | nil => exact absurd rfl hne
  | cons x xs ih =>
    rcases xs with _ | ⟨y, ys⟩
    · rw [List.flatten, List.flatten_nil, List.append_nil]
      exact ⟨(h x (List.mem_cons_self _ _)).1.1, (h x (List.mem_cons_self _ _)).2⟩
    · have ih' := ih (fun z hz => h z (List.mem_cons_of_mem _ hz)) (by simp)
      rw [List.flatten_cons]
      constructor
      · intro hcon
        exact ih'.1 (List.append_eq_nil.1 hcon).2
      · rw [endsNL, List.getLast?_append_of_ne_nil _ ih'.1]
        exact ih'.2

theorem mem_rdropWhile (p : Char → Bool) (s : Str) :
    ∀ c ∈ rdropWhile p s, c ∈ s := by
  intro c hc
  rw [rdropWhile] at hc
  have := (List.dropWhile_sublist (l := s.reverse) (p := p)).subset
    (List.mem_reverse.1 hc)
  exact List.mem_reverse.1 this

theorem mem_pyStrip (s : Str) : ∀ c ∈ pyStrip s, c ∈ s := by
  intro c hc
  have h1 := mem_rdropWhile isPyWs (pyLstrip s) c hc
  exact (List.dropWhile_sublist (l := s) (p := isPyWs)).subset h1

theorem mem_subDelim (d s : Str) : ∀ c ∈ subDelim d s, c ∈ s := by
  have H : ∀ n (s : Str), s.length ≤ n → ∀ c ∈ subDelim d s, c ∈ s := by
    intro n
    induction n with
    | zero =>
      intro s hs c hc
      have : s = [] := List.length_eq_zero.1 (Nat.le_zero.1 hs)
      subst this
      rw [subDelim] at hc
      cases hc
    | succ n ih =>
      intro s hs c hc
      rcases s with _ | ⟨x, rest⟩
      · rw [subDelim] at hc
        cases hc
      rw [subDelim] at hc
      by_cases hcond : d ≠ [] ∧ d.isPrefixOf (x :: rest)
      · rw [dif_pos hcond] at hc
        dsimp only at hc
        rcases hfc : findCloseIdx d ((x :: rest).drop d.length) with _ | k
        · rw [hfc] at hc
          rcases List.mem_cons.1 hc with rfl | hc
          · exact List.mem_cons_self _ _
          · exact List.mem_cons_of_mem _ (ih rest (by simpa using hs) c hc)
        · rw [hfc] at hc
          rcases List.mem_append.1 hc with hc | hc
          · exact (List.drop_sublist _ _).subset
              ((List.take_sublist _ _).subset hc)
          · have hd1 : 1 ≤ d.length := by
              rcases d with _ | _
              · exact absurd rfl hcond.1
              · simp
            have hs' : rest.length + 1 ≤ n + 1 := by simpa using hs
            have hlen : (((x :: rest).drop d.length).drop (k + d.length)).length
                ≤ n := by
              simp only [List.length_drop, List.length_cons]
              omega
            have := ih _ hlen c hc
            exact (List.drop_sublist _ _).subset
              ((List.drop_sublist _ _).subset this)
      · rw [dif_neg hcond] at hc
        rcases List.mem_cons.1 hc with rfl | hc
        · exact List.mem_cons_self _ _
        · exact List.mem_cons_of_mem _ (ih rest (by simpa using hs) c hc)
  exact H s.length s le_rfl

theorem mem_pyReplace (pat rep s : Str) :
    ∀ c ∈ pyReplace pat rep s, c ∈ s ∨ c ∈ rep := by
  have H : ∀ n (s : Str), s.length ≤ n →
      ∀ c ∈ pyReplace pat rep s, c ∈ s ∨ c ∈ rep := by
    intro n
    induction n with
    | zero =>
      intro s hs c hc
      have : s = [] := List.length_eq_zero.1 (Nat.le_zero.1 hs)
      subst this
      rw [pyReplace] at hc
      cases hc
    | succ n ih =>
      intro s hs c hc
      rcases s with _ | ⟨x, rest⟩
      · rw [pyReplace] at hc
        cases hc
      rw [pyReplace] at hc
      by_cases hcond : pat ≠ [] ∧ pat.isPrefixOf (x :: rest)
      · rw [dif_pos hcond] at hc
        rcases List.mem_append.1 hc with hc | hc
        · exact Or.inr hc
        · have hp1 : 1 ≤ pat.length := by
            rcases pat with _ | _
            · exact absurd rfl hcond.1
            · simp
          have hs' : rest.length + 1 ≤ n + 1 := by simpa using hs
          have hlen : ((x :: rest).drop pat.length).length ≤ n := by
            simp only [List.length_drop, List.length_cons]
            omega
          rcases ih _ hlen c hc with hh | hh
          · exact Or.inl ((List.drop_sublist _ _).subset hh)
          · exact Or.inr hh
      · rw [dif_neg hcond] at hc
        rcases List.mem_cons.1 hc with rfl | hc
        · exact Or.inl (List.mem_cons_self _ _)
        · rcases ih rest (by simpa using hs) c hc with hh | hh
          · exact Or.inl (List.mem_cons_of_mem _ hh)
          · exact Or.inr hh
  exact H s.length s le_rfl

theorem mem_joinSep (sep : Str) (xs : List Str) :
    ∀ c ∈ joinSep sep xs, c ∈ sep ∨ ∃ x ∈ xs, c ∈ x := by
  induction xs with
  | nil =>
    intro c hc
    cases hc
  | cons x ys ih =>
    intro c hc
    rcases ys with _ | ⟨y, ys'⟩
    · exact Or.inr ⟨x, List.mem_cons_self _ _, hc⟩
    · rw [show joinSep sep (x :: y :: ys') = x ++ sep ++ joinSep sep (y :: ys')
        from rfl] at hc
      rcases List.mem_append.1 hc with hc | hc
      · rcases List.mem_append.1 hc with hc | hc
        · exact Or.inr ⟨x, List.mem_cons_self _ _, hc⟩
        · exact Or.inl hc
      · rcases ih c hc with hh | ⟨z, hz, hcz⟩
        · exact Or.inl hh
        · exact Or.inr ⟨z, List.mem_cons_of_mem _ hz, hcz⟩

theorem mem_splitOnChar (sep : Char) (s : Str) :
    ∀ cell ∈ splitOnChar sep s, ∀ c ∈ cell, c ∈ s := by
  induction s with
  | nil =>
    intro cell hcell c hc
    rcases List.mem_singleton.1 hcell
    cases hc
  | cons x rest ih =>
    intro cell hcell c hc
    rw [splitOnChar] at hcell
    by_cases hx : x = sep
    · rw [if_pos hx] at hcell
      rcases List.mem_cons.1 hcell with rfl | hcell
      · cases hc
      · exact List.mem_cons_of_mem _ (ih cell hcell c hc)
    · rw [if_neg hx] at hcell
      rcases hsp : splitOnChar sep rest with _ | ⟨z, zs⟩
      · rw [hsp] at hcell
        rcases List.mem_singleton.1 hcell
        rcases List.mem_singleton.1 hc
        exact List.mem_cons_self _ _
      · rw [hsp] at hcell
        rcases List.mem_cons.1 hcell with rfl | hcell
        · rcases List.mem_cons.1 hc with rfl | hc
          · exact List.mem_cons_self _ _
          · exact List.mem_cons_of_mem _
              (ih z (hsp ▸ List.mem_cons_self _ _) c hc)
        · exact List.mem_cons_of_mem _
            (ih cell (hsp ▸ List.mem_cons_of_mem _ hcell) c hc)

theorem mem_stripChar (ch : Char) (s : Str) : ∀ c ∈ stripChar ch s, c ∈ s := by
  intro c hc
  have h1 := mem_rdropWhile _ _ c hc
  exact (List.dropWhile_sublist (l := s) (p := (· == ch))).subset h1

theorem mem_split_row (line : Str) :
    ∀ cell ∈ split_row line, ∀ c ∈ cell, c ∈ line := by
  intro cell hcell c hc
  rw [split_row] at hcell
  rcases List.mem_map.1 hcell with ⟨rawcell, hraw, rfl⟩
  have h1 := mem_pyStrip _ c hc
  have h2 := mem_splitOnChar '|' _ rawcell hraw c h1
  exact mem_pyStrip _ c (mem_stripChar '|' _ c h2)

theorem noNL_of_all (s : Str) (hs : s.all (fun c => !(c == '\n')) = true) :
    ∀ c ∈ s, c ≠ '\n' := by
  intro c hc
  have := List.all_eq_true.1 hs c hc
  simpa using this

theorem startsWithPipe_append (s t : Str) (hs : s ≠ []) :
    startsWithPipe (s ++ t) = startsWithPipe s := by
  rcases s with _ | ⟨c, r⟩
  · exact absurd rfl hs
  · rfl

theorem goodLine_append_nl (s : Str) (hs : ∀ c ∈ s, c ≠ '\n')
    (hp : startsWithPipe (s ++ ['\n']) = false) :
    goodLine (s ++ ['\n']) := by
  refine ⟨⟨by simp, ?_⟩, ?_, hp⟩
  · intro c hc
    have hdl : (s ++ ['\n']).dropLast = s := by simp
    rw [hdl] at hc
    exact hs c hc
  · show (s ++ ['\n']).getLast? = some '\n'
    simp

theorem getD_mem_of_lt (l : List Str) (i : Nat) (h : i < l.length) :
    l.getD i [] ∈ l := by
  rw [List.getD_eq_getElem?_getD, List.getElem?_eq_getElem h]
  exact List.getElem_mem h

theorem noNL_strip (s : Str) (h : ∀ c ∈ s, c ≠ '\n') :
    ∀ c ∈ pyStrip s, c ≠ '\n' :=
  fun c hc => h c (mem_pyStrip _ c hc)

theorem noNL_boldSub (s : Str) (h : ∀ c ∈ s, c ≠ '\n') :
    ∀ c ∈ boldSub s, c ≠ '\n' :=
  fun c hc => h c (mem_subDelim _ _ c hc)

theorem noNL_roleName (r : Role) : ∀ c ∈ roleName r, c ≠ '\n' := by
  rcases r
  · exact noNL_of_all _ (by decide)
  · exact noNL_of_all _ (by decide)
  · exact noNL_of_all _ (by decide)

theorem noNL_to_jsx_string (s : Str) (h : ∀ c ∈ s, c ≠ '\n') :
    ∀ c ∈ to_jsx_string s, c ≠ '\n' := by
  have ht : ∀ c ∈ boldSub (pyStrip s), c ≠ '\n' :=
    noNL_boldSub _ (noNL_strip _ h)
  intro c hc
  rw [to_jsx_string] at hc
  dsimp only at hc
  split_ifs at hc with hcond
  · rcases List.mem_cons.1 hc with rfl | hc
    · decide
    rcases List.mem_cons.1 hc with rfl | hc
    · decide
    rcases List.mem_append.1 hc with hc | hc
    · rcases mem_pyReplace _ _ _ c hc with hc | hc
      · rcases mem_pyReplace _ _ _ c hc with hc | hc
        · rcases mem_pyReplace _ _ _ c hc with hc | hc
          · exact ht c hc
          · exact noNL_of_all _ (by decide) c hc
        · exact noNL_of_all _ (by decide) c hc
      · exact noNL_of_all _ (by decide) c hc
    · exact noNL_of_all _ (by decide) c hc
  · rcases List.mem_cons.1 hc with rfl | hc
    · decide
    rcases List.mem_append.1 hc with hc | hc
    · rcases mem_pyReplace _ _ _ c hc with hc | hc
      · exact ht c hc
      · exact noNL_of_all _ (by decide) c hc
    · exact noNL_of_all _ (by decide) c hc

theorem noNL_to_jsx_key (s : Str) (h : ∀ c ∈ s, c ≠ '\n') :
    ∀ c ∈ to_jsx_key s, c ≠ '\n' := by
  have ht : ∀ c ∈ codeSub (boldSub (pyStrip s)), c ≠ '\n' :=
    fun c hc => noNL_boldSub _ (noNL_strip _ h) c (mem_subDelim _ _ c hc)
  intro c hc
  rw [to_jsx_key] at hc
  rcases List.mem_cons.1 hc with rfl | hc
  · decide
  rcases List.mem_append.1 hc with hc | hc
  · rcases mem_pyReplace _ _ _ c hc with hc | hc
    · exact ht c hc
    · exact noNL_of_all _ (by decide) c hc
  · exact noNL_of_all _ (by decide) c hc

theorem noNL_joinSep (sep : Str) (xs : List Str)
    (hsep : ∀ c ∈ sep, c ≠ '\n') (hxs : ∀ x ∈ xs, ∀ c ∈ x, c ≠ '\n') :
    ∀ c ∈ joinSep sep xs, c ≠ '\n' := by
  intro c hc
  rcases mem_joinSep sep xs c hc with hc | ⟨x, hx, hcx⟩
  · exact hsep c hc
  · exact hxs x hx c hcx

theorem noNL_mergeParts (row : List Str) (idxs : List Nat)
    (headers : Option (List Str))
    (hrow : ∀ cell ∈ row, ∀ c ∈ cell, c ≠ '\n')
    (hhs : ∀ hl, headers = some hl → ∀ x ∈ hl, ∀ c ∈ x, c ≠ '\n') :
    ∀ p ∈ mergeParts row idxs headers, ∀ c ∈ p, c ≠ '\n' := by
  intro p hp c hc
  rw [mergeParts] at hp
  rcases List.mem_filterMap.1 hp with ⟨i, _, hfun⟩
  by_cases hlt : i < row.length
  · rw [if_pos hlt] at hfun
    dsimp only at hfun
    have hval : ∀ c ∈ pyStrip (row.getD i []), c ≠ '\n' :=
      noNL_strip _ (hrow _ (getD_mem_of_lt row i hlt))
    by_cases hbad : badCellB (pyStrip (row.getD i [])) = true
    · rw [if_pos hbad] at hfun
      cases hfun
    · rw [if_neg hbad] at hfun
      rcases headers with _ | hl
      · dsimp only at hfun
        rcases Option.some.inj hfun with rfl
        exact hval c hc
      · dsimp only at hfun
        have hhl := hhs hl rfl
        by_cases hhlt : i < hl.length
        · rw [if_pos hhlt] at hfun
          rcases Option.some.inj hfun with rfl
          rcases List.mem_append.1 hc with hc | hc
          · rcases List.mem_append.1 hc with hc | hc
            · exact noNL_strip _ (hhl _ (getD_mem_of_lt hl i hhlt)) c hc
            · exact noNL_of_all _ (by decide) c hc
          · exact hval c hc
        · rw [if_neg hhlt] at hfun
          rcases Option.some.inj hfun with rfl
          exact hval c hc
  · rw [if_neg hlt] at hfun
    cases hfun

theorem propsOf_good (row : List Str) (m : Mapping)
    (headers : Option (List Str))
    (hrow : ∀ cell ∈ row, ∀ c ∈ cell, c ≠ '\n')
    (hhs : ∀ hl, headers = some hl → ∀ x ∈ hl, ∀ c ∈ x, c ≠ '\n') :
    ∀ p ∈ propsOf row m headers,
      (∀ c ∈ p, c ≠ '\n') ∧ startsWithPipe p = false ∧ p ≠ [] := by
  intro p hp
  rcases m with flds | idxs
  · rw [propsOf, fieldProps] at hp
    rcases List.mem_filterMap.1 hp with ⟨q, _, hfun⟩
    by_cases hlt : q.1 < row.length
    · rw [if_pos hlt] at hfun
      dsimp only at hfun
      by_cases hbad : badCellB (pyStrip (row.getD q.1 [])) = true
      · rw [if_pos hbad] at hfun
        cases hfun
      · rw [if_neg hbad] at hfun
        rcases Option.some.inj hfun with rfl
        have hval : ∀ c ∈ pyStrip (row.getD q.1 []), c ≠ '\n' :=
          noNL_strip _ (hrow _ (getD_mem_of_lt row q.1 hlt))
        refine ⟨?_, ?_, ?_⟩
        · intro c hc
          rw [fieldLine] at hc
          rcases List.mem_append.1 hc with hc | hc
          · rcases List.mem_append.1 hc with hc | hc
            · rcases List.mem_append.1 hc with hc | hc
              · rcases List.mem_append.1 hc with hc | hc
                · exact noNL_of_all _ (by decide) c hc
                · exact noNL_roleName _ c hc
              · exact noNL_of_all _ (by decide) c hc
            · exact noNL_to_jsx_string _ hval c hc
          · exact noNL_of_all _ (by decide) c hc
        · rw [fieldLine]
          rfl
        · rw [fieldLine]
          simp
    · rw [if_neg hlt] at hfun
      cases hfun
  · rw [propsOf] at hp
    by_cases hparts : mergeParts row idxs headers = []
    · rw [if_pos hparts] at hp
      cases hp
    · rw [if_neg hparts] at hp
      rcases List.mem_singleton.1 hp with rfl
      refine ⟨?_, ?_, ?_⟩
      · intro c hc
        rw [mergeLine] at hc
        rcases List.mem_append.1 hc with hc | hc
        · rcases List.mem_append.1 hc with hc | hc
          · exact noNL_of_all _ (by decide) c hc
          · exact noNL_to_jsx_string _
              (noNL_joinSep _ _ (noNL_of_all _ (by decide))
                (noNL_mergeParts row idxs headers hrow hhs)) c hc
        · exact noNL_of_all _ (by decide) c hc
      · rw [mergeLine]
        rfl
      · rw [mergeLine]
        simp

theorem joinSep_nl_flatten (props : List Str) (h : props ≠ []) :
    joinSep "\n".toList props ++ "\n".toList
      = (props.map (· ++ "\n".toList)).flatten := by
  induction props with
  | nil => exact absurd rfl h
  | cons p rest ih =>
    rcases rest with _ | ⟨q, qs⟩
    · simp [joinSep]
    · rw [show joinSep "\n".toList (p :: q :: qs)
        = p ++ "\n".toList ++ joinSep "\n".toList (q :: qs) from rfl]
      rw [List.map_cons, List.flatten_cons, ← ih (by simp)]
      simp [List.append_assoc]

theorem entry_lines (key : Str) (row : List Str) (m : Mapping)
    (headers : Option (List Str))
    (hkey : ∀ c ∈ key, c ≠ '\n')
    (hrow : ∀ cell ∈ row, ∀ c ∈ cell, c ≠ '\n')
    (hhs : ∀ hl, headers = some hl → ∀ x ∈ hl, ∀ c ∈ x, c ≠ '\n') :
    ∃ L : List Str, (∀ l ∈ L, goodLine l) ∧
      row_to_type_node key row m headers = L.flatten := by
  have hprops := propsOf_good row m headers hrow hhs
  have hkeyNL : ∀ c ∈ to_jsx_key key, c ≠ '\n' := noNL_to_jsx_key key hkey
  by_cases hp : propsOf row m headers = []
  · refine ⟨[("    ".toList ++ to_jsx_key key ++ ": \x7b\x7d,".toList)
      ++ "\n".toList], ?_, ?_⟩
    · intro l hl
      rcases List.mem_singleton.1 hl with rfl
      refine goodLine_append_nl _ ?_ rfl
      intro c hc
      rcases List.mem_append.1 hc with hc | hc
      · rcases List.mem_append.1 hc with hc | hc
        · exact noNL_of_all _ (by decide) c hc
        · exact hkeyNL c hc
      · exact noNL_of_all _ (by decide) c hc
    · rw [row_to_type_node]
      rw [if_pos hp]
      rw [show (": \x7b\x7d,\n".toList : Str)
        = ": \x7b\x7d,".toList ++ "\n".toList from rfl]
      simp [List.append_assoc]
  · refine ⟨(("    ".toList ++ to_jsx_key key ++ ": \x7b".toList) ++ "\n".toList)
        :: (propsOf row m headers).map (· ++ "\n".toList)
        ++ [("    \x7d,".toList ++ "\n".toList)], ?_, ?_⟩
    · intro l hl
      rcases List.mem_cons.1 hl with rfl | hl
      · refine goodLine_append_nl _ ?_ rfl
        intro c hc
        rcases List.mem_append.1 hc with hc | hc
        · rcases List.mem_append.1 hc with hc | hc
          · exact noNL_of_all _ (by decide) c hc
          · exact hkeyNL c hc
        · exact noNL_of_all _ (by decide) c hc
      rcases List.mem_append.1 hl with hl | hl
      · rcases List.mem_map.1 hl with ⟨q, hq, rfl⟩
        obtain ⟨h1, h2, h3⟩ := hprops q hq
        refine goodLine_append_nl q h1 ?_
        rw [startsWithPipe_append _ _ h3]
        exact h2
      · rcases List.mem_singleton.1 hl with rfl
        exact goodLine_append_nl _ (noNL_of_all _ (by decide)) rfl
    · rw [row_to_type_node]
      rw [if_neg hp]
      rw [show ("\n    \x7d,\n".toList : Str)
        = "\n".toList ++ ("    \x7d,".toList ++ "\n".toList) from rfl]
      rw [show (": \x7b\n".toList : Str) = ": \x7b".toList ++ "\n".toList from rfl]
      simp only [List.flatten_cons, List.flatten_append, List.flatten_nil,
        List.append_nil, List.append_assoc]
      rw [← joinSep_nl_flatten _ hp]
      simp [List.append_assoc]

theorem tableEntries_lines (m : Mapping) (hs : List Str)
    (rows : List (List Str))
    (hhs : ∀ x ∈ hs, ∀ c ∈ x, c ≠ '\n')
    (hrows : ∀ r ∈ rows, ∀ cell ∈ r, ∀ c ∈ cell, c ≠ '\n') :
    ∃ L : List Str, (∀ l ∈ L, goodLine l) ∧
      (tableEntries m hs rows).flatten = L.flatten := by
  induction rows with
  | nil => exact ⟨[], by simp, by rw [tableEntries]⟩
  | cons row rest ih =>
    obtain ⟨L1, hL1g, hL1⟩ := ih (fun r hr => hrows r (List.mem_cons_of_mem _ hr))
    rw [tableEntries]
    by_cases hskip : row = [] ∨ row.getD 0 [] = []
    · rw [if_pos hskip]
      exact ⟨L1, hL1g, hL1⟩
    · rw [if_neg hskip]
      push_neg at hskip
      have hrowm := hrows row (List.mem_cons_self _ _)
      have hlt : 0 < row.length := List.length_pos.2 hskip.1
      obtain ⟨L0, hL0g, hL0⟩ := entry_lines (pyStrip (row.getD 0 [])) row m
        (some hs) (noNL_strip _ (hrowm _ (getD_mem_of_lt row 0 hlt))) hrowm
        (fun hl hhl => by injection hhl with h; subst h; exact hhs)
      refine ⟨L0 ++ L1, ?_, ?_⟩
      · intro l hl
        rcases List.mem_append.1 hl with h | h
        · exact hL0g l h
        · exact hL1g l h
      · rw [List.flatten_cons, hL0, hL1, List.flatten_append]

theorem jsx_good_lines (headers : List Str) (rows : List (List Str))
    (hhs : ∀ x ∈ headers, ∀ c ∈ x, c ≠ '\n')
    (hrows : ∀ r ∈ rows, ∀ cell ∈ r, ∀ c ∈ cell, c ≠ '\n') :
    ∃ L : List Str, (∀ l ∈ L, goodLine l) ∧
      table_to_type_table headers rows ++ "\n".toList = L.flatten := by
  obtain ⟨L, hLg, hL⟩ :=
    tableEntries_lines (headers_to_mapping headers) headers rows hhs hrows
  refine ⟨("<TypeTable".toList ++ "\n".toList)
    :: ("  type=\x7b".toList ++ "\n".toList)
    :: L ++ [("  \x7d".toList ++ "\n".toList), ("/>".toList ++ "\n".toList)],
    ?_, ?_⟩
  · intro l hl
    rcases List.mem_cons.1 hl with rfl | hl
    · exact goodLine_append_nl _ (noNL_of_all _ (by decide)) rfl
    rcases List.mem_cons.1 hl with rfl | hl
    · exact goodLine_append_nl _ (noNL_of_all _ (by decide)) rfl
    rcases List.mem_append.1 hl with hl | hl
    · exact hLg l hl
    rcases List.mem_cons.1 hl with rfl | hl
    · exact goodLine_append_nl _ (noNL_of_all _ (by decide)) rfl
    rcases List.mem_singleton.1 hl with rfl
    exact goodLine_append_nl _ (noNL_of_all _ (by decide)) rfl
  · rw [table_to_type_table]
    rw [show ("<TypeTable\n  type=\x7b\n".toList : Str)
      = ("<TypeTable".toList ++ "\n".toList)
        ++ ("  type=\x7b".toList ++ "\n".toList) from rfl]
    rw [show ("  \x7d\n/>".toList : Str)
      = ("  \x7d".toList ++ "\n".toList) ++ "/>".toList from rfl]
    simp only [List.flatten_cons, List.flatten_append, List.flatten_nil,
      List.flatten, List.append_nil, List.append_assoc]
    rw [hL]
    simp [List.append_assoc]

theorem jsx_split (headers : List Str) (rows : List (List Str))
    (hhs : ∀ x ∈ headers, ∀ c ∈ x, c ≠ '\n')
    (hrows : ∀ r ∈ rows, ∀ cell ∈ r, ∀ c ∈ cell, c ≠ '\n') :
    ∀ l ∈ splitLinesKeep (table_to_type_table headers rows ++ "\n".toList),
      goodLine l := by
  obtain ⟨L, hLg, hL⟩ := jsx_good_lines headers rows hhs hrows
  rw [hL, linesWF_flatten L (linesWF_of_all L
    (fun x hx => ⟨(hLg x hx).1, (hLg x hx).2.1⟩))]
  exact hLg

theorem noNL_rstripNL (l : Str) (h : properLine l) :
    ∀ c ∈ rstripNL l, c ≠ '\n' := by
  obtain ⟨hne, hin⟩ := h
  rcases List.eq_nil_or_concat l with rfl | ⟨xs, a, hl⟩
  · exact absurd rfl hne
  · rw [List.concat_eq_append] at hl
    subst hl
    have hxs : ∀ c ∈ xs, c ≠ '\n' := by
      intro c hc
      exact hin c (by simpa using hc)
    intro c hc
    by_cases ha : a = '\n'
    · subst ha
      have heq : rstripNL (xs ++ ['\n']) = rstripNL xs := by
        simp [rstripNL, rdropWhile, List.dropWhile]
      rw [heq] at hc
      exact hxs c (mem_rdropWhile _ _ c hc)
    · have heq : rstripNL (xs ++ [a]) = xs ++ [a] := by
        simp [rstripNL, rdropWhile, List.dropWhile, ha]
      rw [heq] at hc
      rcases List.mem_append.1 hc with hc | hc
      · exact hxs c hc
      · rcases List.mem_singleton.1 hc with rfl
        exact ha

theorem parse_noNL (lines : List Str)
    (h : ∀ l ∈ lines, ∀ c ∈ l, c ≠ '\n')
    (headers : List Str) (rows : List (List Str))
    (hp : parse_table lines = some (headers, rows)) :
    (∀ x ∈ headers, ∀ c ∈ x, c ≠ '\n') ∧
      (∀ r ∈ rows, ∀ cell ∈ r, ∀ c ∈ cell, c ≠ '\n') := by
  rw [parse_table] at hp
  split_ifs at hp with h1 h2
  injection hp with hp
  rw [Prod.mk.injEq] at hp
  obtain ⟨rfl, rfl⟩ := hp.symm.imp Eq.symm Eq.symm
  constructor
  · intro x hx c hc
    have h0 : 0 < lines.length := by omega
    exact h _ (getD_mem_of_lt lines 0 h0) c (mem_split_row _ x hx c hc)
  · intro r hr cell hcell c hc
    rcases List.mem_map.1 hr with ⟨l', hl', rfl⟩
    have hl'' : l' ∈ lines :=
      (List.drop_sublist 2 lines).subset (List.mem_of_mem_filter hl')
    exact h l' hl'' c (mem_split_row _ cell hcell c hc)

theorem linesWF_proper (ls : List Str) (h : linesWF ls) :
    ∀ l ∈ ls, properLine l := by
  induction ls with
  | nil => intro l hl; cases hl
  | cons x rest ih =>
    rcases linesWF_cons_elim x rest h with ⟨hp, hrest⟩
    intro l hl
    rcases List.mem_cons.1 hl with rfl | hl
    · exact hp
    rcases hrest with rfl | ⟨_, hwf⟩
    · cases hl
    · exact ih hwf l hl

theorem split_flatten_append (X Y : List Str)
    (h : ∀ x ∈ X, properLine x ∧ endsNL x) :
    splitLinesKeep ((X ++ Y).flatten) = X ++ splitLinesKeep (Y.flatten) := by
  rcases X with _ | ⟨x, xs⟩
  · simp
  · obtain ⟨hf1, hf2⟩ := flatten_endsNL _ h (by simp)
    rw [List.flatten_append, splitLinesKeep_append _ _ hf1 hf2,
      linesWF_flatten _ (linesWF_of_all _ h)]

theorem rw_twice_flag (ls : List Str) (h : linesWF ls) :
    (rewriteLines (splitLinesKeep ((rewriteLines ls).1).flatten)).2 = false := by
  have H : ∀ n (ls : List Str), ls.length ≤ n → linesWF ls →
      (rewriteLines (splitLinesKeep ((rewriteLines ls).1).flatten)).2
        = false := by
    intro n
    induction n with
    | zero =>
      intro ls hlen _
      have hnil : ls = [] := List.length_eq_zero.1 (Nat.le_zero.1 hlen)
      subst hnil
      rw [rw_nil]
      rw [show splitLinesKeep (([] : List Str).flatten) = [] from rfl, rw_nil]
    | succ n ih =>
      intro ls hlen hwf
      rcases ls with _ | ⟨l, rest⟩
      · rw [rw_nil]
        rw [show splitLinesKeep (([] : List Str).flatten) = [] from rfl, rw_nil]
      have hproper : ∀ x ∈ (l :: rest), properLine x := linesWF_proper _ hwf
      by_cases hl : startsWithPipe l = true
      · have hRpipe : ∀ x ∈ (l :: rest).takeWhile startsWithPipe,
            startsWithPipe x = true := fun x hx => List.mem_takeWhile_imp hx
        have hRne : (l :: rest).takeWhile startsWithPipe ≠ [] := by
          simp [List.takeWhile_cons, hl]
        have hsplit : (l :: rest).takeWhile startsWithPipe
            ++ (l :: rest).dropWhile startsWithPipe = l :: rest :=
          List.takeWhile_append_dropWhile (p := startsWithPipe) (l := l :: rest)
        have hlen' : ((l :: rest).dropWhile startsWithPipe).length ≤ n := by
          rw [List.dropWhile_cons, if_pos hl]
          have hd := (List.dropWhile_sublist
            (l := rest) (p := startsWithPipe)).length_le
          simp only [List.length_cons] at hlen
          omega
        have hwfY : linesWF ((l :: rest).dropWhile startsWithPipe) := by
          rcases hre : (l :: rest).dropWhile startsWithPipe with _ | ⟨w, ws⟩
          · trivial
          · have hwf' := hwf
            rw [← hsplit, hre] at hwf'
            exact (linesWF_append_elim _ _ hwf' (by simp)).2
        have hfailcase :
            (parse_table (((l :: rest).takeWhile startsWithPipe).map rstripNL)
                = none
              ∨ ∃ hs, parse_table
                  (((l :: rest).takeWhile startsWithPipe).map rstripNL)
                = some (hs, [])) →
            (rewriteLines (splitLinesKeep
              ((rewriteLines (l :: rest)).1).flatten)).2 = false := by
          intro hfail
          have hrwR : rewriteLines ((l :: rest).takeWhile startsWithPipe)
              = ((l :: rest).takeWhile startsWithPipe, false) :=
            rw_failed_run _ hRpipe hRne hfail
          have heq : rewriteLines (l :: rest)
              = ((l :: rest).takeWhile startsWithPipe
                  ++ (rewriteLines ((l :: rest).dropWhile startsWithPipe)).1,
                 (rewriteLines ((l :: rest).dropWhile startsWithPipe)).2) := by
            rcases hfail with hfail | ⟨hs, hfail⟩
            · exact rw_pipe_none l rest hl hfail
            · exact rw_pipe_some_nil l rest hl hs hfail
          rw [heq]
          dsimp only
          rcases hre : (l :: rest).dropWhile startsWithPipe with _ | ⟨w, ws⟩
          · have hRall : (l :: rest).takeWhile startsWithPipe = l :: rest := by
              conv_rhs => rw [← hsplit, hre, List.append_nil]
            rw [rw_nil]
            dsimp only
            rw [List.append_nil, hRall, linesWF_flatten _ hwf, heq]
            dsimp only
            rw [hre, rw_nil]
          · have hwf' := hwf
            rw [← hsplit, hre] at hwf'
            obtain ⟨hXall, _⟩ := linesWF_append_elim _ _ hwf' (by simp)
            have hw : startsWithPipe w = false := by
              have hhd := headPipe_dropWhile (l :: rest)
              rw [hre] at hhd
              simpa [headPipe] using hhd
            have hwne : w ≠ [] := by
              have hwmem : w ∈ (l :: rest) := by
                rw [← hsplit, hre]
                exact List.mem_append.2 (Or.inr (List.mem_cons_self _ _))
              exact (hproper w hwmem).1
            have hhead : headPipe (splitLinesKeep
                ((rewriteLines (w :: ws)).1).flatten) = false := by
              rw [rw_nonpipe w ws hw]
              dsimp only
              rw [List.flatten_cons, split_head_char w _ hwne, hw]
            rw [split_flatten_append _ _ hXall]
            rw [rw_append _ _ hhead, hrwR]
            simp only [Bool.false_or]
            have hIH := ih _ hlen' hwfY
            rw [hre] at hIH
            exact hIH
        rcases hparse : parse_table
            (((l :: rest).takeWhile startsWithPipe).map rstripNL)
          with _ | ⟨hs, rows⟩
        · exact hfailcase (Or.inl hparse)
        · rcases rows with _ | ⟨r0, rs⟩
          · exact hfailcase (Or.inr ⟨hs, hparse⟩)
          · have hnoNL : ∀ l' ∈ ((l :: rest).takeWhile startsWithPipe).map
                rstripNL, ∀ c ∈ l', c ≠ '\n' := by
              intro l' hl' c hc
              rcases List.mem_map.1 hl' with ⟨x, hx, rfl⟩
              exact noNL_rstripNL x
                (hproper x ((List.takeWhile_sublist _).subset hx)) c hc
            obtain ⟨hhsNL, hrowsNL⟩ := parse_noNL _ hnoNL hs (r0 :: rs) hparse
            have hjsxgood := jsx_split hs (r0 :: rs) hhsNL hrowsNL
            rw [rw_pipe_some l rest hl hs (r0 :: rs) hparse (by simp)]
            dsimp only
            rw [List.flatten_cons]
            have hjne : table_to_type_table hs (r0 :: rs) ++ "\n".toList
                ≠ [] := by simp
            have hjnl : (table_to_type_table hs (r0 :: rs)
                ++ "\n".toList).getLast? = some '\n' := by
              rw [List.getLast?_append_of_ne_nil _
                (by simp : ("\n".toList : Str) ≠ [])]
              rfl
            rw [splitLinesKeep_append _ _ hjne hjnl]
            rw [rw_nonpipe_front _ _ (fun x hx => (hjsxgood x hx).2.2)]
            exact ih _ hlen' hwfY
      · have hl' : startsWithPipe l = false := eq_false_of_ne_true hl
        rcases linesWF_cons_elim l rest hwf with ⟨hp, hrest⟩
        rw [rw_nonpipe l rest hl']
        dsimp only
        rcases hrest with rfl | ⟨hnl, hwfrest⟩
        · rw [rw_nil]
          dsimp only
          rw [List.flatten_cons, List.flatten_nil, List.append_nil,
            properLine_split_single l hp, rw_nonpipe l [] hl', rw_nil]
        · rw [List.flatten_cons,
            splitLinesKeep_append l _ hp.1 hnl, properLine_split_single l hp,
            List.singleton_append, rw_nonpipe l _ hl']
          dsimp only
          exact ih rest (by simpa using hlen) hwfrest
  exact H ls.length ls le_rfl h

theorem startsWithPipe_rstripNL (l : Str) :
    startsWithPipe (rstripNL l) = startsWithPipe l := by
  rcases l with _ | ⟨c, t⟩
  · rfl
  · rcases hu : (c :: t).reverse.dropWhile (· == '\n') with _ | ⟨d, r⟩
    · have hall := List.dropWhile_eq_nil_iff.mp hu
      have hc : c = '\n' := by
        have := hall c (by simp)
        simpa using this
      have h1 : rstripNL (c :: t) = [] := by
        rw [rstripNL, rdropWhile, hu, List.reverse_nil]
      rw [h1, hc]
      rfl
    · have hsuf : (d :: r) <:+ (c :: t).reverse := by
        rw [← hu]
        exact List.dropWhile_suffix _
      have hpre : (d :: r).reverse <+: (c :: t) := by
        have h2 := List.reverse_prefix.mpr hsuf
        rwa [List.reverse_reverse] at h2
      have h1 : rstripNL (c :: t) = (d :: r).reverse := by
        rw [rstripNL, rdropWhile, hu]
      obtain ⟨s, hs⟩ := hpre
      rw [h1]
      rw [List.reverse_cons] at hs ⊢
      rcases hrr : r.reverse with _ | ⟨e, es⟩
      · rw [hrr] at hs
        simp only [List.nil_append] at hs
        rw [List.singleton_append] at hs
        injection hs with h3 h4
        rw [h3]
        rfl
      · rw [hrr] at hs
        rw [List.cons_append, List.cons_append] at hs
        injection hs with h3 h4
        rw [h3]
        rfl

theorem fbAux_shift (i : Nat) (L : List Str) (j : Nat) :
    fbAux L (j + i) = (fbAux L j).map (fun b => (b.1 + i, b.2 + i)) := by
  have H : ∀ n (L : List Str), L.length ≤ n → ∀ j,
      fbAux L (j + i) = (fbAux L j).map (fun b => (b.1 + i, b.2 + i)) := by
    intro n
    induction n with
    | zero =>
      intro L hL j
      have hnil : L = [] := List.length_eq_zero.1 (Nat.le_zero.1 hL)
      subst hnil
      rw [fbAux, fbAux]
      rfl
    | succ n ih =>
      intro L hL j
      rcases L with _ | ⟨l, rest⟩
      · rw [fbAux, fbAux]
        rfl
      by_cases hl : startsWithPipe l = true
      · rw [fbAux, fbAux, dif_pos hl, dif_pos hl]
        dsimp only
        have hlen : ((l :: rest).dropWhile startsWithPipe).length ≤ n := by
          rw [List.dropWhile_cons, if_pos hl]
          have hd := (List.dropWhile_sublist
            (l := rest) (p := startsWithPipe)).length_le
          simp only [List.length_cons] at hL
          omega
        rw [List.map_cons]
        have hco : j + i + ((l :: rest).takeWhile startsWithPipe).length
            = (j + ((l :: rest).takeWhile startsWithPipe).length) + i := by
          omega
        rw [hco, ih _ hlen _]
      · have hl' : ¬ startsWithPipe l = true := hl
        rw [fbAux, fbAux, dif_neg hl', dif_neg hl']
        have hlen : rest.length ≤ n := by simpa using hL
        have hco : j + i + 1 = (j + 1) + i := by omega
        rw [hco, ih _ hlen _]
  exact H L.length L le_rfl j

theorem pb_append (xs ys : List (Nat × Nat)) (lines : List Str) :
    processBlocks (xs ++ ys) lines
      = ((processBlocks ys (processBlocks xs lines).1).1,
         (processBlocks xs lines).2
           || (processBlocks ys (processBlocks xs lines).1).2) := by
  induction xs generalizing lines with
  | nil =>
    rw [List.nil_append, processBlocks]
    simp
  | cons b bs ih =>
    obtain ⟨s, e⟩ := b
    rw [List.cons_append, processBlocks, processBlocks]
    dsimp only
    rcases hp : parse_table (((lines.drop s).take (e - s)).map rstripNL)
      with _ | ⟨hs, rows⟩
    · dsimp only
      exact ih lines
    · dsimp only
      by_cases hr : rows = []
      · rw [if_pos hr, if_pos hr]
        exact ih lines
      · rw [if_neg hr, if_neg hr]
        dsimp only
        rw [ih _]
        simp

theorem pb_shift (bs : List (Nat × Nat)) (run lines : List Str) :
    processBlocks
        (bs.map (fun b => (b.1 + run.length, b.2 + run.length)))
        (run ++ lines)
      = (run ++ (processBlocks bs lines).1, (processBlocks bs lines).2) := by
  induction bs generalizing lines with
  | nil =>
    rw [List.map_nil, processBlocks, processBlocks]
  | cons b bs ih =>
    obtain ⟨s, e⟩ := b
    rw [List.map_cons]
    rw [processBlocks, processBlocks]
    dsimp only
    have hseg : (((run ++ lines).drop (s + run.length)).take
          (e + run.length - (s + run.length)))
        = (lines.drop s).take (e - s) := by
      rw [List.drop_append_eq_append_drop]
      rw [List.drop_eq_nil_of_le (by omega : run.length ≤ s + run.length),
        List.nil_append]
      have h1 : s + run.length - run.length = s := by omega
      have h2 : e + run.length - (s + run.length) = e - s := by omega
      rw [h1, h2]
    rw [hseg]
    rcases hp : parse_table (((lines.drop s).take (e - s)).map rstripNL)
      with _ | ⟨hs, rows⟩
    · dsimp only
      exact ih lines
    · dsimp only
      by_cases hr : rows = []
      · rw [if_pos hr, if_pos hr]
        exact ih lines
      · rw [if_neg hr, if_neg hr]
        dsimp only
        have htake : (run ++ lines).take (s + run.length)
            = run ++ lines.take s := by
          rw [List.take_append_eq_append_take]
          rw [List.take_of_length_le (by omega : run.length ≤ s + run.length)]
          congr 2
          omega
        have hdrop : (run ++ lines).drop (e + run.length) = lines.drop e := by
          rw [List.drop_append_eq_append_drop]
          rw [List.drop_eq_nil_of_le (by omega : run.length ≤ e + run.length),
            List.nil_append]
          congr 1
          omega
        rw [htake, hdrop]
        have hassoc : run ++ lines.take s
              ++ [table_to_type_table hs rows ++ "\n".toList] ++ lines.drop e
            = run ++ (lines.take s
              ++ [table_to_type_table hs rows ++ "\n".toList]
              ++ lines.drop e) := by
          simp [List.append_assoc]
        rw [hassoc, ih _]

theorem takeWhile_map_pipe (L : List Str) :
    (L.map rstripNL).takeWhile startsWithPipe
      = (L.takeWhile startsWithPipe).map rstripNL ∧
    (L.map rstripNL).dropWhile startsWithPipe
      = (L.dropWhile startsWithPipe).map rstripNL := by
  induction L with
  | nil => exact ⟨rfl, rfl⟩
  | cons l rest ih =>
    rw [List.map_cons, List.takeWhile_cons, List.takeWhile_cons,
      List.dropWhile_cons, List.dropWhile_cons, startsWithPipe_rstripNL]
    by_cases hl : startsWithPipe l = true
    · simp [hl, ih.1, ih.2]
    · have hl' : startsWithPipe l = false := eq_false_of_ne_true hl
      simp [hl']

theorem pb_bridge (lines : List Str) :
    processBlocks ((find_table_blocks (lines.map rstripNL)).reverse) lines
      = rewriteLines lines := by
  have H : ∀ n (lines : List Str), lines.length ≤ n →
      processBlocks ((find_table_blocks (lines.map rstripNL)).reverse) lines
        = rewriteLines lines := by
    intro n
    induction n with
    | zero =>
      intro lines hl
      have hnil : lines = [] := List.length_eq_zero.1 (Nat.le_zero.1 hl)
      subst hnil
      rw [rw_nil, find_table_blocks, List.map_nil, fbAux]
      rfl
    | succ n ih =>
      intro lines hl
      rcases lines with _ | ⟨l, rest⟩
      · rw [rw_nil, find_table_blocks, List.map_nil, fbAux]
        rfl
      by_cases hl1 : startsWithPipe l = true
      · have hlen' : ((l :: rest).dropWhile startsWithPipe).length ≤ n := by
          rw [List.dropWhile_cons, if_pos hl1]
          have hd := (List.dropWhile_sublist
            (l := rest) (p := startsWithPipe)).length_le
          simp only [List.length_cons] at hl
          omega
        have hl1m : startsWithPipe (rstripNL l) = true := by
          rw [startsWithPipe_rstripNL]
          exact hl1
        have htdm := takeWhile_map_pipe (l :: rest)
        have hsplit : (l :: rest).takeWhile startsWithPipe
            ++ (l :: rest).dropWhile startsWithPipe = l :: rest :=
          List.takeWhile_append_dropWhile (p := startsWithPipe) (l := l :: rest)
        have ihD := ih _ hlen'
        rw [find_table_blocks] at ihD
        have h := pb_shift
          ((fbAux ((((l :: rest).dropWhile startsWithPipe)).map rstripNL)
            0).reverse)
          ((l :: rest).takeWhile startsWithPipe)
          ((l :: rest).dropWhile startsWithPipe)
        rw [hsplit, ihD] at h
        rw [find_table_blocks, List.map_cons, fbAux, dif_pos hl1m]
        dsimp only
        rw [← List.map_cons rstripNL l rest, htdm.1, htdm.2, List.length_map]
        rw [fbAux_shift, List.reverse_cons, List.reverse_map]
        rw [pb_append, h]
        dsimp only
        rw [processBlocks]
        dsimp only
        rw [processBlocks]
        simp only [List.drop_zero, Nat.zero_add, Nat.sub_zero, List.take_left]
        rcases hparse : parse_table
            (((l :: rest).takeWhile startsWithPipe).map rstripNL)
          with _ | ⟨hs, rows⟩
        · rw [rw_pipe_none l rest hl1 hparse]
          simp
        · rcases rows with _ | ⟨r0, rs⟩
          · rw [rw_pipe_some_nil l rest hl1 hs hparse]
            simp
          · rw [rw_pipe_some l rest hl1 hs (r0 :: rs) hparse (by simp)]
            dsimp only
            rw [List.take_zero, List.drop_left]
            simp
            rw [processBlocks]
      · have hl1' : startsWithPipe (rstripNL l) = true → False := by
          rw [startsWithPipe_rstripNL]
          intro hcon
          exact hl1 hcon
        have hl1f : startsWithPipe l = false := eq_false_of_ne_true hl1
        rw [find_table_blocks, List.map_cons, fbAux, dif_neg hl1']
        rw [fbAux_shift]
        have ihR := ih rest (by simpa using hl)
        rw [find_table_blocks] at ihR
        have hps := pb_shift
          ((fbAux (rest.map rstripNL) 0).reverse) [l] rest
        simp only [List.length_cons, List.length_nil, Nat.zero_add,
          List.singleton_append] at hps
        rw [ihR] at hps
        rw [List.reverse_map, hps, rw_nonpipe l rest hl1f]
  exact H lines.length lines le_rfl

theorem linesWF_last_NL (X : List Str) (h : linesWF X)
    (hlast : ∀ l, X.getLast? = some l → endsNL l) :
    ∀ l ∈ X, properLine l ∧ endsNL l := by
  induction X with
  | nil => intro l hl; cases hl
  | cons x xs ih =>
    rcases linesWF_cons_elim x xs h with ⟨hp, hrest⟩
    intro l hl
    rcases hrest with rfl | ⟨hnl, hwf⟩
    · rcases List.mem_singleton.1 hl with rfl
      exact ⟨hp, hlast l rfl⟩
    · rcases List.mem_cons.1 hl with rfl | hl
      · exact ⟨hp, hnl⟩
      · rcases xs with _ | ⟨y, ys⟩
        · cases hl
        · exact ih hwf (fun z hz => hlast z (by rwa [List.getLast?_cons_cons]))
            l hl

theorem split_last_NL (T : Str) (h : endsNL T) :
    ∀ l ∈ splitLinesKeep T, properLine l ∧ endsNL l := by
  have hwf := linesWF_split T
  have hproper := linesWF_proper _ hwf
  refine linesWF_last_NL _ hwf ?_
  intro z hz
  rcases List.eq_nil_or_concat (splitLinesKeep T) with hnil | ⟨Y, z', hY⟩
  · rw [hnil] at hz
    cases hz
  · rw [List.concat_eq_append] at hY
    have hz' : z' = z := by
      rw [hY, List.getLast?_concat] at hz
      exact Option.some.inj hz
    subst hz'
    have hzne : z' ≠ [] :=
      (hproper z' (by
        rw [hY]
        exact List.mem_append.2 (Or.inr (List.mem_singleton.2 rfl)))).1
    have hfl := splitLinesKeep_flatten T
    rw [hY, List.flatten_append] at hfl
    rw [endsNL, ← hfl] at h
    rw [show ([z'] : List Str).flatten = z' ++ [] from rfl,
      List.append_nil] at h
    rwa [List.getLast?_append_of_ne_nil _ hzne] at h

theorem pyStrip_head (c : Char) (s : Str) (hc : isPyWs c = false) :
    ∃ t, pyStrip (c :: s) = c :: t := by
  have h1 : pyLstrip (c :: s) = c :: s := by
    rw [pyLstrip, List.dropWhile_cons, if_neg (by simp [hc])]
  rw [pyStrip, h1, pyRstrip]
  rcases hu : (c :: s).reverse.dropWhile isPyWs with _ | ⟨d, r⟩
  · exfalso
    have hall := List.dropWhile_eq_nil_iff.mp hu
    have hcw := hall c (by simp)
    rw [hc] at hcw
    cases hcw
  · have hsuf : (d :: r) <:+ (c :: s).reverse := by
      rw [← hu]
      exact List.dropWhile_suffix _
    have hpre : (d :: r).reverse <+: (c :: s) := by
      have h2 := List.reverse_prefix.mpr hsuf
      rwa [List.reverse_reverse] at h2
    obtain ⟨w, hw⟩ := hpre
    rw [rdropWhile, hu]
    rw [List.reverse_cons] at hw ⊢
    rcases hrr : r.reverse with _ | ⟨e, es⟩
    · rw [hrr] at hw
      simp only [List.nil_append] at hw ⊢
      rw [List.singleton_append] at hw
      injection hw with h3 h4
      exact ⟨[], by rw [h3]⟩
    · rw [hrr] at hw
      rw [List.cons_append, List.cons_append] at hw
      injection hw with h3 h4
      exact ⟨es ++ [d], by rw [h3]; simp⟩

theorem jsx_head (hs : List Str) (rows : List (List Str)) :
    ∃ t, table_to_type_table hs rows ++ "\n".toList = '<' :: t := by
  rw [table_to_type_table]
  exact ⟨_, rfl⟩

theorem anchor_nonpipe (v : Str)
    (h : importFumadocsB v = true ∨ isFenceB v = true) :
    startsWithPipe v = false := by
  rcases v with _ | ⟨c, t⟩
  · rfl
  · by_cases hc : c = '|'
    · subst hc
      obtain ⟨t', ht'⟩ := pyStrip_head '|' t (by decide)
      exfalso
      rcases h with h | h
      · rw [importFumadocsB, Bool.and_eq_true_iff] at h
        have h1 := h.1
        rw [ht'] at h1
        rw [show startsWithB "import ".toList ('|' :: t')
          = false from rfl] at h1
        simp at h1
      · rw [isFenceB, ht'] at h
        rw [show (('|' :: t' : Str) == ['-', '-', '-']) = false from rfl] at h
        simp at h
    · have hsp : startsWithPipe (c :: t) = (c == '|') := rfl
      rw [hsp]
      simp [hc]

theorem anchor_not_jsx (v : Str)
    (h : importFumadocsB v = true ∨ isFenceB v = true) :
    ∀ hs rows, v ≠ table_to_type_table hs rows ++ "\n".toList := by
  intro hs rows hcon
  obtain ⟨t, ht⟩ := jsx_head hs rows
  rw [← hcon] at ht
  subst ht
  obtain ⟨t', ht'⟩ := pyStrip_head '<' t (by decide)
  rcases h with h | h
  · rw [importFumadocsB, Bool.and_eq_true_iff] at h
    have h1 := h.1
    rw [ht'] at h1
    rw [show startsWithB "import ".toList ('<' :: t') = false from rfl] at h1
    simp at h1
  · rw [isFenceB, ht'] at h
    rw [show (('<' :: t' : Str) == ['-', '-', '-']) = false from rfl] at h
    simp at h

theorem insertAfterImport_cases (X : List Str) :
    (insertAfterImport X = (X, false) ∧ ∀ y ∈ X, importFumadocsB y = false)
    ∨ ∃ U v W, X = U ++ v :: W ∧ importFumadocsB v = true
        ∧ (∀ y ∈ U, importFumadocsB y = false)
        ∧ insertAfterImport X = (U ++ v :: IMPORT_LINE :: W, true) := by
  induction X with
  | nil => exact Or.inl ⟨rfl, fun y hy => absurd hy (List.not_mem_nil y)⟩
  | cons l rest ih =>
    by_cases hl : importFumadocsB l = true
    · refine Or.inr ⟨[], l, rest, rfl, hl,
        (fun y hy => absurd hy (List.not_mem_nil y)), ?_⟩
      rw [insertAfterImport, if_pos hl]
      rfl
    · have hl' : importFumadocsB l = false := eq_false_of_ne_true hl
      rcases ih with ⟨h1, h2⟩ | ⟨U, v, W, hX, hv, hU, heq⟩
      · refine Or.inl ⟨?_, ?_⟩
        · rw [insertAfterImport, if_neg hl]
          dsimp only
          rw [h1]
        · intro y hy
          rcases List.mem_cons.1 hy with rfl | hy
          · exact hl'
          · exact h2 y hy
      · refine Or.inr ⟨l :: U, v, W, by rw [hX, List.cons_append], hv, ?_, ?_⟩
        · intro y hy
          rcases List.mem_cons.1 hy with rfl | hy
          · exact hl'
          · exact hU y hy
        · rw [insertAfterImport, if_neg hl]
          dsimp only
          rw [heq]
          simp

theorem ifmAux_true_cases (X : List Str) :
    (insertAfterFrontmatterAux true X = X ∧ ∀ y ∈ X, isFenceB y = false)
    ∨ ∃ U v W, X = U ++ v :: W ∧ isFenceB v = true
        ∧ (∀ y ∈ U, isFenceB y = false)
        ∧ insertAfterFrontmatterAux true X
          = U ++ v :: "\n".toList :: IMPORT_LINE :: W := by
  induction X with
  | nil => exact Or.inl ⟨rfl, fun y hy => absurd hy (List.not_mem_nil y)⟩
  | cons l rest ih =>
    by_cases hl : isFenceB l = true
    · refine Or.inr ⟨[], l, rest, rfl, hl,
        (fun y hy => absurd hy (List.not_mem_nil y)), ?_⟩
      rw [insertAfterFrontmatterAux, if_pos hl, if_pos rfl]
      rfl
    · have hl' : isFenceB l = false := eq_false_of_ne_true hl
      rcases ih with ⟨h1, h2⟩ | ⟨U, v, W, hX, hv, hU, heq⟩
      · refine Or.inl ⟨?_, ?_⟩
        · rw [insertAfterFrontmatterAux, if_neg hl, h1]
        · intro y hy
          rcases List.mem_cons.1 hy with rfl | hy
          · exact hl'
          · exact h2 y hy
      · refine Or.inr ⟨l :: U, v, W, by rw [hX, List.cons_append], hv, ?_, ?_⟩
        · intro y hy
          rcases List.mem_cons.1 hy with rfl | hy
          · exact hl'
          · exact hU y hy
        · rw [insertAfterFrontmatterAux, if_neg hl, heq, List.cons_append]

theorem ifmAux_false_cases (X : List Str) :
    insertAfterFrontmatterAux false X = X
    ∨ ∃ U v W, X = U ++ v :: W ∧ isFenceB v = true
        ∧ insertAfterFrontmatterAux false X
          = U ++ v :: "\n".toList :: IMPORT_LINE :: W := by
  induction X with
  | nil => exact Or.inl rfl
  | cons l rest ih =>
    by_cases hl : isFenceB l = true
    · rcases ifmAux_true_cases rest with ⟨h1, _⟩ | ⟨U, v, W, hX, hv, _, heq⟩
      · refine Or.inl ?_
        rw [insertAfterFrontmatterAux, if_pos hl, if_neg (by simp), h1]
      · refine Or.inr ⟨l :: U, v, W, by rw [hX, List.cons_append], hv, ?_⟩
        rw [insertAfterFrontmatterAux, if_pos hl, if_neg (by simp), heq,
          List.cons_append]
    · rcases ih with h1 | ⟨U, v, W, hX, hv, heq⟩
      · refine Or.inl ?_
        rw [insertAfterFrontmatterAux, if_neg hl, h1]
      · refine Or.inr ⟨l :: U, v, W, by rw [hX, List.cons_append], hv, ?_⟩
        rw [insertAfterFrontmatterAux, if_neg hl, heq, List.cons_append]

theorem ifmAux_false_strong (X : List Str) :
    ((X.filter isFenceB).length ≤ 1
      ∧ insertAfterFrontmatterAux false X = X)
    ∨ ∃ U1 f1 U2 f2 W, X = U1 ++ f1 :: (U2 ++ f2 :: W)
        ∧ isFenceB f1 = true ∧ isFenceB f2 = true
        ∧ (∀ y ∈ U1, isFenceB y = false)
        ∧ (∀ y ∈ U2, isFenceB y = false)
        ∧ insertAfterFrontmatterAux false X
          = U1 ++ f1 :: (U2 ++ f2 :: "\n".toList :: IMPORT_LINE :: W) := by
  induction X with
  | nil => exact Or.inl ⟨by simp, rfl⟩
  | cons l rest ih =>
    by_cases hl : isFenceB l = true
    · rcases ifmAux_true_cases rest with ⟨h1, h2⟩ | ⟨U, v, W, hX, hv, hU, heq⟩
      · refine Or.inl ⟨?_, ?_⟩
        · have hrest : rest.filter isFenceB = [] := by
            have hall : ∀ (L : List Str), (∀ y ∈ L, isFenceB y = false) →
                L.filter isFenceB = [] := by
              intro L
              induction L with
              | nil => intro _; rfl
              | cons x xs ihx =>
                intro hL
                rw [List.filter_cons,
                  if_neg (by simp [hL x (List.mem_cons_self _ _)])]
                exact ihx (fun y hy => hL y (List.mem_cons_of_mem _ hy))
            exact hall rest h2
          rw [List.filter_cons, if_pos hl, hrest]
          simp
        · rw [insertAfterFrontmatterAux, if_pos hl, if_neg (by simp), h1]
      · refine Or.inr ⟨[], l, U, v, W, by rw [hX]; rfl, hl, hv,
          (fun y hy => absurd hy (List.not_mem_nil y)), hU, ?_⟩
        rw [insertAfterFrontmatterAux, if_pos hl, if_neg (by simp), heq]
        rfl
    · have hl' : isFenceB l = false := eq_false_of_ne_true hl
      rcases ih with ⟨hcount, hid⟩ | ⟨U1, f1, U2, f2, W, hX, hf1, hf2,
        hU1, hU2, heq⟩
      · refine Or.inl ⟨?_, ?_⟩
        · rw [List.filter_cons, if_neg (by simp [hl'])]
          exact hcount
        · rw [insertAfterFrontmatterAux, if_neg hl, hid]
      · refine Or.inr ⟨l :: U1, f1, U2, f2, W,
          by rw [hX, List.cons_append], hf1, hf2, ?_, hU2, ?_⟩
        · intro y hy
          rcases List.mem_cons.1 hy with rfl | hy
          · exact hl'
          · exact hU1 y hy
        · rw [insertAfterFrontmatterAux, if_neg hl, heq, List.cons_append]

theorem insertImport_cases (X : List Str) :
    insertImport X = X
    ∨ ∃ U v W, X = U ++ v :: W
        ∧ (importFumadocsB v = true ∨ isFenceB v = true)
        ∧ (insertImport X = U ++ v :: IMPORT_LINE :: W
           ∨ insertImport X = U ++ v :: "\n".toList :: IMPORT_LINE :: W) := by
  rw [insertImport]
  rcases insertAfterImport_cases X with ⟨h1, _⟩ | ⟨U, v, W, hX, hv, _, heq⟩
  · rw [h1]
    dsimp only
    rw [if_neg (by simp)]
    rcases ifmAux_false_cases X with h2 | ⟨U, v, W, hX2, hv2, heq2⟩
    · exact Or.inl h2
    · exact Or.inr ⟨U, v, W, hX2, Or.inr hv2, Or.inr heq2⟩
  · rw [heq]
    dsimp only
    rw [if_pos rfl]
    exact Or.inr ⟨U, v, W, hX, Or.inl hv, Or.inl rfl⟩

theorem rw_success_run (R : List Str)
    (hR : ∀ l ∈ R, startsWithPipe l = true) (hne : R ≠ [])
    (hs : List Str) (rows : List (List Str)) (hrne : rows ≠ [])
    (hp : parse_table (R.map rstripNL) = some (hs, rows)) :
    rewriteLines R
      = ([table_to_type_table hs rows ++ "\n".toList], true) := by
  rcases R with _ | ⟨l, rest⟩
  · exact absurd rfl hne
  have htake : (l :: rest).takeWhile startsWithPipe = l :: rest :=
    List.takeWhile_eq_self_iff.mpr hR
  have hdrop : (l :: rest).dropWhile startsWithPipe = [] :=
    List.dropWhile_eq_nil_iff.mpr (fun x hx => hR x hx)
  rw [rw_pipe_some l rest (hR l (List.mem_cons_self _ _)) hs rows
    (by rw [htake]; exact hp) hrne, hdrop, rw_nil]

theorem headPipe_of_decomp (D ls1' : List Str) (v : Str) (ls2' : List Str)
    (hD : D = ls1' ++ v :: ls2') (h : headPipe D = false) :
    headPipe ls1' = false := by
  rcases ls1' with _ | ⟨w, ws⟩
  · rfl
  · rw [hD] at h
    simpa [headPipe] using h

theorem rw_decomp (v : Str)
    (hv : startsWithPipe v = false)
    (hvj : ∀ hs rows, v ≠ table_to_type_table hs rows ++ "\n".toList) :
    ∀ ls U W, (rewriteLines ls).1 = U ++ v :: W →
    ∃ ls1 ls2, ls = ls1 ++ v :: ls2
      ∧ (rewriteLines ls1).1 = U ∧ (rewriteLines ls2).1 = W := by
  have H : ∀ n (ls : List Str), ls.length ≤ n → ∀ U W,
      (rewriteLines ls).1 = U ++ v :: W →
      ∃ ls1 ls2, ls = ls1 ++ v :: ls2
        ∧ (rewriteLines ls1).1 = U ∧ (rewriteLines ls2).1 = W := by
    intro n
    induction n with
    | zero =>
      intro ls hlen U W h
      have hnil : ls = [] := List.length_eq_zero.1 (Nat.le_zero.1 hlen)
      subst hnil
      rw [rw_nil] at h
      exact absurd h.symm (by simp)
    | succ n ih =>
      intro ls hlen U W h
      rcases ls with _ | ⟨l, rest⟩
      · rw [rw_nil] at h
        exact absurd h.symm (by simp)
      by_cases hl : startsWithPipe l = true
      · have hRpipe : ∀ x ∈ (l :: rest).takeWhile startsWithPipe,
            startsWithPipe x = true := fun x hx => List.mem_takeWhile_imp hx
        have hRne : (l :: rest).takeWhile startsWithPipe ≠ [] := by
          simp [List.takeWhile_cons, hl]
        have hsplit : (l :: rest).takeWhile startsWithPipe
            ++ (l :: rest).dropWhile startsWithPipe = l :: rest :=
          List.takeWhile_append_dropWhile (p := startsWithPipe) (l := l :: rest)
        have hlenD : ((l :: rest).dropWhile startsWithPipe).length ≤ n := by
          rw [List.dropWhile_cons, if_pos hl]
          have hd := (List.dropWhile_sublist
            (l := rest) (p := startsWithPipe)).length_le
          simp only [List.length_cons] at hlen
          omega
        have hheadD : headPipe ((l :: rest).dropWhile startsWithPipe)
            = false := headPipe_dropWhile _
        have hfailk :
            (parse_table (((l :: rest).takeWhile startsWithPipe).map rstripNL)
                = none
              ∨ ∃ hs0, parse_table
                  (((l :: rest).takeWhile startsWithPipe).map rstripNL)
                = some (hs0, [])) →
            (rewriteLines (l :: rest)).1
              = (l :: rest).takeWhile startsWithPipe
                ++ (rewriteLines ((l :: rest).dropWhile startsWithPipe)).1 →
            ∃ ls1 ls2, l :: rest = ls1 ++ v :: ls2
              ∧ (rewriteLines ls1).1 = U ∧ (rewriteLines ls2).1 = W := by
          intro hfail hout
          rw [hout] at h
          have hsplit2 : ∃ a',
              U = (l :: rest).takeWhile startsWithPipe ++ a'
              ∧ (rewriteLines ((l :: rest).dropWhile startsWithPipe)).1
                = a' ++ v :: W := by
            rcases List.append_eq_append_iff.1 h with ⟨a', hU, hT⟩
              | ⟨c', hR, hvW⟩
            · exact ⟨a', hU, hT⟩
            · rcases c' with _ | ⟨x, c''⟩
              · refine ⟨[], by rw [List.append_nil] at hR ⊢; exact hR.symm,
                  by rw [List.nil_append] at hvW ⊢; exact hvW.symm⟩
              · exfalso
                have hx : x ∈ (l :: rest).takeWhile startsWithPipe := by
                  rw [hR]
                  exact List.mem_append.2 (Or.inr (List.mem_cons_self _ _))
                have hxp := hRpipe x hx
                have hvx : v = x := by
                  rw [List.cons_append, List.cons.injEq] at hvW
                  exact hvW.1
                rw [hvx, hxp] at hv
                cases hv
          obtain ⟨a', hU, hT⟩ := hsplit2
          obtain ⟨ls1', ls2', hD, hU2, hW⟩ := ih _ hlenD a' W hT
          refine ⟨(l :: rest).takeWhile startsWithPipe ++ ls1', ls2',
            ?_, ?_, hW⟩
          · rw [List.append_assoc, ← hD, hsplit]
          · rw [rw_append _ _ (headPipe_of_decomp _ _ _ _ hD hheadD)]
            dsimp only
            rw [rw_failed_run _ hRpipe hRne hfail]
            dsimp only
            rw [hU2]
            exact hU.symm
        rcases hparse : parse_table
            (((l :: rest).takeWhile startsWithPipe).map rstripNL)
          with _ | ⟨hs, rows⟩
        · exact hfailk (Or.inl hparse)
            (by rw [rw_pipe_none l rest hl hparse])
        · rcases rows with _ | ⟨r0, rs⟩
          · exact hfailk (Or.inr ⟨hs, hparse⟩)
              (by rw [rw_pipe_some_nil l rest hl hs hparse])
          · have heq := rw_pipe_some l rest hl hs (r0 :: rs) hparse (by simp)
            rw [heq] at h
            dsimp only at h
            rcases U with _ | ⟨u, U'⟩
            · rw [List.nil_append] at h
              injection h with h1 _
              exact absurd h1.symm (hvj hs (r0 :: rs))
            · rw [List.cons_append] at h
              injection h with h1 h2
              obtain ⟨ls1', ls2', hD, hU2, hW⟩ := ih _ hlenD U' W h2
              refine ⟨(l :: rest).takeWhile startsWithPipe ++ ls1', ls2',
                ?_, ?_, hW⟩
              · rw [List.append_assoc, ← hD, hsplit]
              · rw [rw_append _ _ (headPipe_of_decomp _ _ _ _ hD hheadD)]
                dsimp only
                rw [rw_success_run _ hRpipe hRne hs (r0 :: rs) (by simp)
                  hparse]
                dsimp only
                rw [hU2, h1]
                rfl
      · have hl' : startsWithPipe l = false := eq_false_of_ne_true hl
        rw [rw_nonpipe l rest hl'] at h
        dsimp only at h
        rcases U with _ | ⟨u, U'⟩
        · rw [List.nil_append] at h
          injection h with h1 h2
          exact ⟨[], rest, by rw [List.nil_append, h1], by rw [rw_nil], h2⟩
        · rw [List.cons_append] at h
          injection h with h1 h2
          obtain ⟨ls1', ls2', hrest, hU2, hW⟩ :=
            ih rest (by simpa using hlen) U' W h2
          refine ⟨l :: ls1', ls2', ?_, ?_, hW⟩
          · rw [hrest, List.cons_append]
          · rw [rw_nonpipe l ls1' hl']
            dsimp only
            rw [hU2, h1]
  exact fun ls => H ls.length ls le_rfl

theorem rw_twice_flag_insert (ls1 ls2 : List Str) (v T : Str)
    (hwf : linesWF (ls1 ++ v :: ls2))
    (hv : startsWithPipe v = false)
    (hTne : T ≠ []) (hTnl : endsNL T)
    (hTlines : ∀ l ∈ splitLinesKeep T, startsWithPipe l = false) :
    (rewriteLines (splitLinesKeep
      (((rewriteLines ls1).1).flatten ++ v ++ T
        ++ ((rewriteLines ls2).1).flatten))).2 = false := by
  have hproper := linesWF_proper _ hwf
  have hvp : properLine v :=
    hproper v (List.mem_append.2 (Or.inr (List.mem_cons_self _ _)))
  have hls1 : ∀ x ∈ ls1, properLine x ∧ endsNL x :=
    (linesWF_append_elim ls1 (v :: ls2) hwf (by simp)).1
  have hwf2' := (linesWF_append_elim ls1 (v :: ls2) hwf (by simp)).2
  have hwf2 : linesWF ls2 := by
    rcases linesWF_cons_elim v ls2 hwf2' with ⟨_, hrest⟩
    rcases hrest with rfl | ⟨_, hw⟩
    · trivial
    · exact hw
  have hvTne : v ++ T ≠ [] := by
    intro hcon
    exact hvp.1 (List.append_eq_nil.1 hcon).1
  have hvTnl : endsNL (v ++ T) := by
    rw [endsNL, List.getLast?_append_of_ne_nil _ hTne]
    exact hTnl
  have hxI := split_last_NL (v ++ T) hvTnl
  have hxIflat : (splitLinesKeep (v ++ T)).flatten = v ++ T :=
    splitLinesKeep_flatten _
  have hxIne : splitLinesKeep (v ++ T) ≠ [] := by
    rw [Ne, splitLinesKeep_nil_iff]
    exact hvTne
  have hxInp : ∀ l ∈ splitLinesKeep (v ++ T), startsWithPipe l = false := by
    by_cases hvnl : endsNL v
    · rw [splitLinesKeep_append v T hvp.1 hvnl]
      intro l hl
      rcases List.mem_append.1 hl with hl | hl
      · rw [properLine_split_single v hvp] at hl
        rcases List.mem_singleton.1 hl with rfl
        exact hv
      · exact hTlines l hl
    · have hvnoNL : ∀ c ∈ v, ¬ c = '\n' := by
        rcases List.eq_nil_or_concat v with rfl | ⟨xs, a, hx⟩
        · intro c hc
          cases hc
        · rw [List.concat_eq_append] at hx
          subst hx
          intro c hc
          rcases List.mem_append.1 hc with hc | hc
          · exact hvp.2 c (by simpa using hc)
          · rcases List.mem_singleton.1 hc with rfl
            intro hcon
            exact hvnl (by rw [endsNL, List.getLast?_concat, hcon])
      rw [splitLinesKeep_append_noNL v T hvp.1 hvnoNL]
      rcases hTs : splitLinesKeep T with _ | ⟨t0, ts⟩
      · rw [splitLinesKeep_nil_iff] at hTs
        exact absurd hTs hTne
      · intro l hl
        rcases List.mem_cons.1 hl with rfl | hl
        · rw [startsWithPipe_append _ _ hvp.1]
          exact hv
        · exact hTlines l (by rw [hTs]; exact List.mem_cons_of_mem _ hl)
  have hMwf : linesWF (ls1 ++ (splitLinesKeep (v ++ T) ++ ls2)) := by
    refine linesWF_append_right _ _ hls1 ?_
    exact linesWF_append_right _ _ hxI hwf2
  have hhead : headPipe (splitLinesKeep (v ++ T) ++ ls2) = false := by
    rcases hxs : splitLinesKeep (v ++ T) with _ | ⟨x0, xs⟩
    · exact absurd hxs hxIne
    · have h0 : startsWithPipe x0 = false :=
        hxInp x0 (by rw [hxs]; exact List.mem_cons_self _ _)
      simpa [headPipe] using h0
  have hM := rw_twice_flag _ hMwf
  have hrwM : (rewriteLines (ls1 ++ (splitLinesKeep (v ++ T) ++ ls2))).1
      = (rewriteLines ls1).1 ++ (splitLinesKeep (v ++ T)
        ++ (rewriteLines ls2).1) := by
    rw [rw_append _ _ hhead]
    dsimp only
    rw [rw_nonpipe_front _ _ hxInp]
  rw [hrwM] at hM
  have hflat : ((rewriteLines ls1).1 ++ (splitLinesKeep (v ++ T)
        ++ (rewriteLines ls2).1)).flatten
      = ((rewriteLines ls1).1).flatten ++ v ++ T
        ++ ((rewriteLines ls2).1).flatten := by
    rw [List.flatten_append, List.flatten_append, hxIflat]
    simp [List.append_assoc]
  rw [hflat] at hM
  exact hM

theorem rw_twice_flag_insertImport (ls : List Str) (h : linesWF ls) :
    (rewriteLines (splitLinesKeep
      ((insertImport (rewriteLines ls).1).flatten))).2 = false := by
  rcases insertImport_cases (rewriteLines ls).1 with heq
    | ⟨U, v, W, hX, hv, hins⟩
  · rw [heq]
    exact rw_twice_flag ls h
  · have hvnp : startsWithPipe v = false := anchor_nonpipe v hv
    have hvnj := anchor_not_jsx v hv
    obtain ⟨ls1, ls2, hls, hU, hW⟩ := rw_decomp v hvnp hvnj ls U W hX
    subst hls
    rcases hins with hins | hins
    · have hcore := rw_twice_flag_insert ls1 ls2 v IMPORT_LINE h hvnp
        (by decide) (show IMPORT_LINE.getLast? = some '\n' by decide)
        (by
          rw [properLine_split_single IMPORT_LINE
            ⟨by decide, by decide⟩]
          intro l hl
          rcases List.mem_singleton.1 hl with rfl
          decide)
      rw [hins]
      have hfl : (U ++ v :: IMPORT_LINE :: W).flatten
          = ((rewriteLines ls1).1).flatten ++ v ++ IMPORT_LINE
            ++ ((rewriteLines ls2).1).flatten := by
        rw [← hU, ← hW]
        simp [List.flatten_append, List.append_assoc]
      rw [hfl]
      exact hcore
    · have hcore := rw_twice_flag_insert ls1 ls2 v
        ("\n".toList ++ IMPORT_LINE) h hvnp
        (by decide)
        (show ("\n".toList ++ IMPORT_LINE : Str).getLast? = some '\n'
          by decide)
        (by
          rw [show splitLinesKeep ("\n".toList ++ IMPORT_LINE)
              = "\n".toList :: splitLinesKeep IMPORT_LINE from by
            rw [show ("\n".toList ++ IMPORT_LINE : Str)
                = '\n' :: IMPORT_LINE from rfl]
            rw [splitLinesKeep, if_pos rfl]]
          rw [properLine_split_single IMPORT_LINE ⟨by decide, by decide⟩]
          intro l hl
          rcases List.mem_cons.1 hl with rfl | hl
          · decide
          · rcases List.mem_singleton.1 hl with rfl
            decide)
      rw [hins]
      have hfl : (U ++ v :: "\n".toList :: IMPORT_LINE :: W).flatten
          = ((rewriteLines ls1).1).flatten ++ v
            ++ ("\n".toList ++ IMPORT_LINE)
            ++ ((rewriteLines ls2).1).flatten := by
        rw [← hU, ← hW]
        simp [List.flatten_append, List.append_assoc]
      rw [hfl]
      exact hcore

theorem convert_of_flag (T : Str)
    (hf : (rewriteLines (splitLinesKeep T)).2 = false) :
    convert T = (T, false) := by
  rw [convert]
  by_cases hb : find_table_blocks ((splitLinesKeep T).map rstripNL) = []
  · rw [if_pos hb]
  · rw [if_neg hb]
    dsimp only
    rw [pb_bridge, if_pos hf]

theorem convert_idem (D : Str) :
    convert ((convert D).1) = ((convert D).1, false) := by
  by_cases hb : find_table_blocks ((splitLinesKeep D).map rstripNL) = []
  · have h1 : convert D = (D, false) := by
      rw [convert, if_pos hb]
    rw [h1]
    exact h1
  · have hwfl : linesWF (splitLinesKeep D) := linesWF_split D
    by_cases hp : (rewriteLines (splitLinesKeep D)).2 = false
    · have h1 : convert D = (D, false) := by
        rw [convert, if_neg hb]
        dsimp only
        rw [pb_bridge, if_pos hp]
      rw [h1]
      exact h1
    · have h1 : convert D
          = ((if containsSub (pyStrip IMPORT_LINE) D
              then (rewriteLines (splitLinesKeep D)).1
              else insertImport (rewriteLines (splitLinesKeep D)).1).flatten,
             true) := by
        rw [convert, if_neg hb]
        dsimp only
        rw [pb_bridge, if_neg hp]
      by_cases hi : containsSub (pyStrip IMPORT_LINE) D = true
      · rw [if_pos hi] at h1
        rw [h1]
        exact convert_of_flag _ (rw_twice_flag _ hwfl)
      · rw [if_neg hi] at h1
        rw [h1]
        exact convert_of_flag _ (rw_twice_flag_insertImport _ hwfl)

theorem convert_false_id (D : Str) (h : (convert D).2 = false) :
    (convert D).1 = D := by
  by_cases hb : find_table_blocks ((splitLinesKeep D).map rstripNL) = []
  · rw [convert, if_pos hb]
  · by_cases hp : (rewriteLines (splitLinesKeep D)).2 = false
    · rw [convert, if_neg hb]
      dsimp only
      rw [pb_bridge, if_pos hp]
    · exfalso
      rw [convert, if_neg hb] at h
      dsimp only at h
      rw [pb_bridge, if_neg hp] at h
      simp at h

/-- C2: the converter is idempotent: running `convert` on the output text of a
first run returns that text unchanged with the modified flag false (no block
is replaced and no write happens on the second run), for every input
document. -/
theorem c2_idempotence (D : Str) :
    convert ((convert D).1) = ((convert D).1, false) :=
  convert_idem D

theorem fbAux_ne_nil (L : List Str)
    (hex : ∃ l ∈ L, startsWithPipe l = true) :
    ∀ i, fbAux L i ≠ [] := by
  induction L with
  | nil =>
    rcases hex with ⟨l, hl, _⟩
    cases hl
  | cons x rest ih =>
    intro i
    by_cases hx : startsWithPipe x = true
    · rw [fbAux, dif_pos hx]
      simp
    · rw [fbAux, dif_neg hx]
      rcases hex with ⟨l, hl, hlp⟩
      rcases List.mem_cons.1 hl with rfl | hl
      · exact absurd hlp hx
      · exact ih ⟨l, hl, hlp⟩ _

/-- C8: frame property of the converter: when `convert` reports the document
as unmodified its output text is exactly the input, and a maximal marker run
whose parse fails or yields zero data rows is passed through verbatim by the
rewriting pass, leaving the block untouched in the output. -/
theorem c8_frame (D : Str) (R rest : List Str) :
    ((convert D).2 = false → (convert D).1 = D)
    ∧ ((∀ l ∈ R, startsWithPipe l = true) → R ≠ [] →
        headPipe rest = false →
        (parse_table (R.map rstripNL) = none
          ∨ ∃ hs, parse_table (R.map rstripNL) = some (hs, [])) →
        rewriteLines (R ++ rest)
          = (R ++ (rewriteLines rest).1, (rewriteLines rest).2)) := by
  refine ⟨convert_false_id D, ?_⟩
  intro hR hne hhead hfail
  rcases R with _ | ⟨l, R'⟩
  · exact absurd rfl hne
  have htake : (l :: R').takeWhile startsWithPipe = l :: R' :=
    List.takeWhile_eq_self_iff.mpr hR
  have hdrop : (l :: R').dropWhile startsWithPipe = [] :=
    List.dropWhile_eq_nil_iff.mpr (fun x hx => hR x hx)
  have htd := takeWhile_append_headPipe (l :: R') rest hhead
  have htake2 : ((l :: R') ++ rest).takeWhile startsWithPipe = l :: R' := by
    rw [htd.1, htake]
  have hdrop2 : ((l :: R') ++ rest).dropWhile startsWithPipe = rest := by
    rw [htd.2, hdrop, List.nil_append]
  rw [show (l :: R') ++ rest = l :: (R' ++ rest) from rfl] at htake2 hdrop2 ⊢
  rcases hfail with hfail | ⟨hs, hfail⟩
  · rw [rw_pipe_none l (R' ++ rest) (hR l (List.mem_cons_self _ _))
      (by rw [htake2]; exact hfail), htake2, hdrop2]
  · rw [rw_pipe_some_nil l (R' ++ rest) (hR l (List.mem_cons_self _ _)) hs
      (by rw [htake2]; exact hfail), htake2, hdrop2]

theorem c8_witness :
    ((convert "x".toList).2 = false ∧ (convert "x".toList).1 = "x".toList)
    ∧ ((∀ l ∈ (["|x|\n".toList] : List Str), startsWithPipe l = true)
        ∧ (["|x|\n".toList] : List Str) ≠ []
        ∧ headPipe ([] : List Str) = false
        ∧ parse_table ((["|x|\n".toList] : List Str).map rstripNL) = none)
    ∧ rewriteLines (["|x|\n".toList] ++ ([] : List Str))
        = (["|x|\n".toList] ++ (rewriteLines ([] : List Str)).1,
           (rewriteLines ([] : List Str)).2) := by
  have hblocks : find_table_blocks
      ((splitLinesKeep "x".toList).map rstripNL) = [] := by
    rw [show (splitLinesKeep "x".toList).map rstripNL
        = ["x".toList] from by decide]
    rw [find_table_blocks, fbAux, dif_neg (by decide), fbAux]
  have hcv : convert "x".toList = ("x".toList, false) := by
    rw [convert, if_pos hblocks]
  refine ⟨⟨by rw [hcv], (c8_frame "x".toList ["|x|\n".toList] []).1
      (by rw [hcv])⟩,
    ⟨by decide, by decide, by decide, by decide⟩,
    (c8_frame "x".toList ["|x|\n".toList] []).2 (by decide) (by decide)
      (by decide) (Or.inl (by decide))⟩

/-- C3 (amended): when the first insertion pass fires, the import line is
appended right after the FIRST line whose stripped form starts with
"import " and which contains "fumadocs" (all earlier lines fail that test);
when no such line exists, the front-matter pass runs instead, which either
leaves the line list unchanged — exactly when fewer than two fence lines
exist — or appends a blank line and the import immediately after the SECOND
fence line (the first fence precedes it and no line between the two is a
fence); and repeated runs of the converter are no-ops, so a second import is
never inserted. -/
theorem c3_import_insertion (X : List Str) :
    ((insertAfterImport X).2 = true →
      ∃ U v W, X = U ++ v :: W ∧ importFumadocsB v = true
        ∧ (∀ y ∈ U, importFumadocsB y = false)
        ∧ insertImport X = U ++ v :: IMPORT_LINE :: W)
    ∧ ((insertAfterImport X).2 = false →
        insertImport X = insertAfterFrontmatterAux false X
        ∧ (((X.filter isFenceB).length ≤ 1
            ∧ insertAfterFrontmatterAux false X = X)
           ∨ ∃ U1 f1 U2 f2 W, X = U1 ++ f1 :: (U2 ++ f2 :: W)
             ∧ isFenceB f1 = true ∧ isFenceB f2 = true
             ∧ (∀ y ∈ U1, isFenceB y = false)
             ∧ (∀ y ∈ U2, isFenceB y = false)
             ∧ insertAfterFrontmatterAux false X
               = U1 ++ f1 :: (U2 ++ f2
                   :: "\n".toList :: IMPORT_LINE :: W)))
    ∧ (∀ D : Str, convert ((convert D).1) = ((convert D).1, false)) := by
  refine ⟨?_, ?_, fun D => convert_idem D⟩
  · intro h2
    rcases insertAfterImport_cases X with ⟨h1, _⟩ | ⟨U, v, W, hX, hv, hU, heq⟩
    · rw [h1] at h2
      simp at h2
    · refine ⟨U, v, W, hX, hv, hU, ?_⟩
      rw [insertImport]
      rw [heq, if_pos rfl]
  · intro h2
    rcases insertAfterImport_cases X with ⟨h1, _⟩ | ⟨U, v, W, hX, hv, hU, heq⟩
    · constructor
      · rw [insertImport]
        rw [h1, if_neg (by simp)]
      · exact ifmAux_false_strong X
    · rw [heq] at h2
      simp at h2

theorem c3_witness :
    (insertAfterImport
        (["import \x7bA\x7d from \x27fumadocs-core\x27;\n".toList,
          "import \x7bB\x7d from \x27fumadocs-ui\x27;\n".toList]
          : List Str)).2 = true
    ∧ ∃ U v W,
        (["import \x7bA\x7d from \x27fumadocs-core\x27;\n".toList,
          "import \x7bB\x7d from \x27fumadocs-ui\x27;\n".toList]
          : List Str) = U ++ v :: W
        ∧ importFumadocsB v = true
        ∧ (∀ y ∈ U, importFumadocsB y = false)
        ∧ insertImport
            ["import \x7bA\x7d from \x27fumadocs-core\x27;\n".toList,
             "import \x7bB\x7d from \x27fumadocs-ui\x27;\n".toList]
          = U ++ v :: IMPORT_LINE :: W :=
  ⟨by decide,
   (c3_import_insertion
      ["import \x7bA\x7d from \x27fumadocs-core\x27;\n".toList,
       "import \x7bB\x7d from \x27fumadocs-ui\x27;\n".toList]).1 (by decide)⟩

set_option maxRecDepth 8192 in
/-- C3 counterexample: on a document with two fumadocs imports and one valid
table, the converter inserts the TypeTable import immediately after the
FIRST fumadocs import line, not after the last one as the claim states. -/
theorem c3_counterexample :
    (convert "---\na\n---\nimport \x7bA\x7d from \x27fumadocs-core\x27;\nimport \x7bB\x7d from \x27fumadocs-ui\x27;\n|h|\n|-|\n|c|\n".toList).1
      = "---\na\n---\nimport \x7bA\x7d from \x27fumadocs-core\x27;\n".toList
        ++ IMPORT_LINE
        ++ "import \x7bB\x7d from \x27fumadocs-ui\x27;\n".toList
        ++ (table_to_type_table ["h".toList] [["c".toList]] ++ "\n".toList)
    ∧ (convert "---\na\n---\nimport \x7bA\x7d from \x27fumadocs-core\x27;\nimport \x7bB\x7d from \x27fumadocs-ui\x27;\n|h|\n|-|\n|c|\n".toList).1
      ≠ "---\na\n---\nimport \x7bA\x7d from \x27fumadocs-core\x27;\nimport \x7bB\x7d from \x27fumadocs-ui\x27;\n".toList
        ++ IMPORT_LINE
        ++ (table_to_type_table ["h".toList] [["c".toList]] ++ "\n".toList) := by
  have hsplit0 : splitLinesKeep "---\na\n---\nimport \x7bA\x7d from \x27fumadocs-core\x27;\nimport \x7bB\x7d from \x27fumadocs-ui\x27;\n|h|\n|-|\n|c|\n".toList
      = ["---\n".toList, "a\n".toList, "---\n".toList,
         "import \x7bA\x7d from \x27fumadocs-core\x27;\n".toList,
         "import \x7bB\x7d from \x27fumadocs-ui\x27;\n".toList,
         "|h|\n".toList, "|-|\n".toList, "|c|\n".toList] := by decide
  have hdrop3 : (["|h|\n".toList, "|-|\n".toList, "|c|\n".toList]
      : List Str).dropWhile startsWithPipe = [] := by decide
  have hrw : rewriteLines
      ["---\n".toList, "a\n".toList, "---\n".toList,
       "import \x7bA\x7d from \x27fumadocs-core\x27;\n".toList,
       "import \x7bB\x7d from \x27fumadocs-ui\x27;\n".toList,
       "|h|\n".toList, "|-|\n".toList, "|c|\n".toList]
      = (["---\n".toList, "a\n".toList, "---\n".toList,
          "import \x7bA\x7d from \x27fumadocs-core\x27;\n".toList,
          "import \x7bB\x7d from \x27fumadocs-ui\x27;\n".toList,
          table_to_type_table ["h".toList] [["c".toList]] ++ "\n".toList],
         true) := by
    rw [rw_nonpipe _ _ (by decide), rw_nonpipe _ _ (by decide),
      rw_nonpipe _ _ (by decide), rw_nonpipe _ _ (by decide),
      rw_nonpipe _ _ (by decide),
      rw_pipe_some _ _ (by decide) ["h".toList] [["c".toList]]
        (by decide) (by simp),
      hdrop3, rw_nil]
  have hbne : find_table_blocks
      ((["---\n".toList, "a\n".toList, "---\n".toList,
         "import \x7bA\x7d from \x27fumadocs-core\x27;\n".toList,
         "import \x7bB\x7d from \x27fumadocs-ui\x27;\n".toList,
         "|h|\n".toList, "|-|\n".toList, "|c|\n".toList]
        : List Str).map rstripNL) ≠ [] := by
    rw [find_table_blocks]
    exact fbAux_ne_nil _ (by decide) 0
  have hiai : insertAfterImport
      ["---\n".toList, "a\n".toList, "---\n".toList,
       "import \x7bA\x7d from \x27fumadocs-core\x27;\n".toList,
       "import \x7bB\x7d from \x27fumadocs-ui\x27;\n".toList,
       table_to_type_table ["h".toList] [["c".toList]] ++ "\n".toList]
      = (["---\n".toList, "a\n".toList, "---\n".toList,
          "import \x7bA\x7d from \x27fumadocs-core\x27;\n".toList,
          IMPORT_LINE,
          "import \x7bB\x7d from \x27fumadocs-ui\x27;\n".toList,
          table_to_type_table ["h".toList] [["c".toList]] ++ "\n".toList],
         true) := by
    rw [insertAfterImport, if_neg (by decide)]
    rw [insertAfterImport, if_neg (by decide)]
    rw [insertAfterImport, if_neg (by decide)]
    rw [insertAfterImport, if_pos (by decide)]
  have hconv : convert "---\na\n---\nimport \x7bA\x7d from \x27fumadocs-core\x27;\nimport \x7bB\x7d from \x27fumadocs-ui\x27;\n|h|\n|-|\n|c|\n".toList
      = ("---\na\n---\nimport \x7bA\x7d from \x27fumadocs-core\x27;\n".toList
          ++ IMPORT_LINE
          ++ "import \x7bB\x7d from \x27fumadocs-ui\x27;\n".toList
          ++ (table_to_type_table ["h".toList] [["c".toList]]
            ++ "\n".toList),
         true) := by
    rw [convert, hsplit0, if_neg hbne]
    dsimp only
    rw [pb_bridge, hrw, if_neg (by simp)]
    dsimp only
    rw [show containsSub (pyStrip IMPORT_LINE)
        "---\na\n---\nimport \x7bA\x7d from \x27fumadocs-core\x27;\nimport \x7bB\x7d from \x27fumadocs-ui\x27;\n|h|\n|-|\n|c|\n".toList
      = false from by decide]
    rw [if_neg (by simp)]
    rw [insertImport, hiai, if_pos rfl]
    dsimp only
    simp only [List.flatten_cons, List.flatten_nil, List.append_nil]
    rw [show ("---\na\n---\nimport \x7bA\x7d from \x27fumadocs-core\x27;\n".toList
        : Str)
      = "---\n".toList ++ ("a\n".toList ++ ("---\n".toList
        ++ "import \x7bA\x7d from \x27fumadocs-core\x27;\n".toList)) from rfl]
    simp [List.append_assoc]
  refine ⟨by rw [hconv], ?_⟩
  intro hcon
  rw [hconv] at hcon
  dsimp only at hcon
  have h3 := congrArg (List.take 60) hcon
  rw [List.take_append_of_le_length (by decide),
    List.take_append_of_le_length (by decide)] at h3
  exact absurd h3 (by decide)
